import Mathlib

/-!
Verification of the evolution-loop core of the Specialist Agent Scaffold
System (SASS).  The Python sources under `src/` are shallowly embedded:

* `src/agent_utils.py` — answer normalization (`extract_final_answer`),
  dynamic module loading (`load_agent_from_file`, modelled as an explicit
  transition on the interpreter's `sys.path` / `sys.modules` state) and the
  model-usage policy check (`validate_agent_model_usage`, whose regex scan
  is embedded as an explicit left-to-right matcher).
* `src/evolution/evaluation.py` — `evaluate_agent_on_dataset` and
  `find_failures_on_train`.  A candidate's `run_agent` entry point is
  embedded as `String → Except String String`: `Except.error` models a
  raised exception, carrying the error detail.
* `src/evolution/evolution_loop.py` — `select_parents` (embedded up to the
  external random draw: the function computes the candidate pool and the
  probability vector handed to `np.random.choice`) and `run_dgm_loop`
  (embedded as a deterministic transition system whose external
  collaborators — module loading, the developer agent, the dataset shuffle —
  are supplied as per-attempt oracles).

Machine reals of the Python source become `ℚ` where the source only ever
produces ratios of counts (accuracy scores) and `ℝ` where transcendental
functions appear (the sigmoid in parent selection).
-/

/- ### Character classes used by the regexes in `agent_utils.py` -/

/-- The character class `[0-9,.]` of the answer-extraction regexes. -/
def isAnsChar (c : Char) : Bool :=
  c.isDigit || c = ',' || c = '.'

/-- The `\s` class (ASCII part), as used by `\s*` in the `####` pattern and
by Python's `str.strip()`. -/
def isSpaceChar (c : Char) : Bool :=
  c = ' ' || c = '\t' || c = '\n' || c = '\r' || c = '\x0b' || c = '\x0c'

/-- `str.replace(",", "")`. -/
def removeCommas (l : List Char) : List Char :=
  l.filter (fun c => c ≠ ',')

/-- `str.strip()` (whitespace from both ends). -/
def pyStripL (l : List Char) : List Char :=
  (((l.dropWhile isSpaceChar).reverse.dropWhile isSpaceChar)).reverse

/-- `str.strip()` on `String`. -/
def pyStrip (s : String) : String :=
  ⟨pyStripL s.data⟩

/-- `str.rstrip(".")`: remove all trailing periods. -/
def rstripDots (l : List Char) : List Char :=
  (l.reverse.dropWhile (fun c => c = '.')).reverse

/- ### `re.findall(r"([0-9,.]+)", text)`:
maximal runs of `[0-9,.]` characters, scanned left to right.  The fuel
argument (instantiated with the text length, which bounds the number of
scanning steps) keeps the recursion structural. -/

def numGo : Nat → List Char → List (List Char)
  | 0, _ => []
  | _, [] => []
  | fuel + 1, c :: cs =>
    if isAnsChar c then
      (c :: cs.takeWhile isAnsChar) :: numGo fuel (cs.dropWhile isAnsChar)
    else
      numGo fuel cs

def numRuns (l : List Char) : List (List Char) :=
  numGo l.length l

/- ### `re.findall(r"####\s*([0-9,.]+)", text)`:
at each position try to match `####`, then greedily skip `\s*`, then take a
non-empty greedy run of `[0-9,.]` (the captured group); on success the scan
resumes after the match, on failure at the next position.  (None of the
sub-patterns overlap, so the greedy scan needs no backtracking.) -/

def hashGo : Nat → List Char → List (List Char)
  | 0, _ => []
  | _, [] => []
  | fuel + 1, c :: cs =>
    if (c :: cs).take 4 = ['#', '#', '#', '#'] then
      if (((c :: cs).drop 4).dropWhile isSpaceChar).takeWhile isAnsChar = [] then
        hashGo fuel cs
      else
        (((c :: cs).drop 4).dropWhile isSpaceChar).takeWhile isAnsChar
          :: hashGo fuel ((((c :: cs).drop 4).dropWhile isSpaceChar).dropWhile isAnsChar)
    else
      hashGo fuel cs

def hashMatches (l : List Char) : List (List Char) :=
  hashGo l.length l

/-- `matches[-1].replace(",", "").strip()` followed by `.rstrip(".")`. -/
def normalizeRun (run : List Char) : List Char :=
  rstripDots (pyStripL (removeCommas run))

/-- `extract_final_answer` from `src/agent_utils.py`: last `####`-marked
numeric run if any, else the last numeric run anywhere, normalized by
removing commas and stripping trailing periods; `""` when no run exists. -/
def extract_final_answer (text : String) : String :=
  match (hashMatches text.data).getLast? with
  | some run => ⟨normalizeRun run⟩
  | none =>
    match (numRuns text.data).getLast? with
    | some run => ⟨normalizeRun run⟩
    | none => ""

example : extract_final_answer "The answer is #### 1,234." = "1234" := by decide
example : extract_final_answer "7.5" = "7.5" := by decide
example : extract_final_answer "no digits here!" = "" := by decide
example : extract_final_answer "x = 3 so #### 42 done" = "42" := by decide
example : extract_final_answer "#####17" = "17" := by decide
example : extract_final_answer "but 99 total" = "99" := by decide

/- ### The model-usage policy regex of `validate_agent_model_usage`:
`model\s*=\s*['"](gpt-[\w.-]+|claude-[\w.-]+|gemini-[\w.-]+)['"]` with
`re.IGNORECASE`.  Embedded as an explicit scanner: at each position an
attempt matches the literal `model` case-insensitively, `\s*`, `=`, `\s*`,
a quote, one of the three vendor prefixes case-insensitively, a non-empty
greedy `[\w.-]+` run, and a closing quote; the captured group is the prefix
plus the run in their original case.  On success the scan resumes after
the match, on failure at the next position. -/

/-- The `[\w.-]` class (ASCII part): word characters plus `.` and `-`. -/
def isWordDotDash (c : Char) : Bool :=
  c.isAlphanum || c = '_' || c = '.' || c = '-'

/-- A quote character, `['"]` (39 is the single-quote code point). -/
def isQuoteChar (c : Char) : Bool :=
  c = '"' || c.toNat = 39

/-- Match a lowercase pattern literal case-insensitively; return the
matched original characters and the remainder. -/
def matchCI : List Char → List Char → Option (List Char × List Char)
  | [], l => some ([], l)
  | _ :: _, [] => none
  | p :: ps, c :: cs =>
    if c.toLower = p then
      match matchCI ps cs with
      | none => none
      | some r => some (c :: r.1, r.2)
    else none

/-- Try the three vendor-prefix alternatives, in the regex's order. -/
def tryModelVendors (l : List Char) : Option (List Char × List Char) :=
  match matchCI "gpt-".data l with
  | some r => some r
  | none =>
    match matchCI "claude-".data l with
    | some r => some r
    | none => matchCI "gemini-".data l

/-- One match attempt of the model regex at the head of `l`; on success
returns the captured group and the remainder after the closing quote. -/
def modelMatchAt (l : List Char) : Option (List Char × List Char) :=
  match matchCI "model".data l with
  | none => none
  | some r1 =>
    match r1.2.dropWhile isSpaceChar with
    | [] => none
    | e :: r3 =>
      if e = '=' then
        match r3.dropWhile isSpaceChar with
        | [] => none
        | q :: r5 =>
          if isQuoteChar q then
            match tryModelVendors r5 with
            | none => none
            | some pr =>
              if pr.2.takeWhile isWordDotDash = [] then none
              else
                match pr.2.dropWhile isWordDotDash with
                | [] => none
                | q2 :: r7 =>
                  if isQuoteChar q2 then
                    some (pr.1 ++ pr.2.takeWhile isWordDotDash, r7)
                  else none
          else none
      else none

/-- `re.findall` of the model regex: scan left to right, collecting the
captured groups; fuel is instantiated with the text length. -/
def findModelsGo : Nat → List Char → List (List Char)
  | 0, _ => []
  | _, [] => []
  | fuel + 1, c :: cs =>
    match modelMatchAt (c :: cs) with
    | some gr => gr.1 :: findModelsGo fuel gr.2
    | none => findModelsGo fuel cs

def findModels (l : List Char) : List (List Char) :=
  findModelsGo l.length l

/-- `validate_agent_model_usage` from `src/agent_utils.py`: pass when no
model literal is found, otherwise pass iff every found literal equals the
allowed model (both stripped). -/
def validate_agent_model_usage (code_string : String) (allowed_model : String) : Bool :=
  let found_models := findModels code_string.data
  if found_models = [] then true
  else found_models.all (fun m => pyStripL m = pyStripL allowed_model.data)

example : validate_agent_model_usage "model=\"claude-x\"" "gpt-4o-mini" = false := by decide
example : validate_agent_model_usage "x=1\nmodel = 'gpt-4o-mini'\n" "gpt-4o-mini" = true := by decide
example : validate_agent_model_usage "print(42)" "gpt-4o-mini" = true := by decide
example : validate_agent_model_usage "MODEL=\"GPT-4\"" "gpt-4o-mini" = false := by decide
example : findModels "a model=\"gemini-1.5\" b".data = ["gemini-1.5".data] := by decide

/- ### Evaluation harness (`src/evolution/evaluation.py`) -/

/-- A dataset sample: a (question, reference-answer) pair. -/
structure Sample where
  question : String
  answer : String
deriving DecidableEq

/-- A loaded agent module.  `run_agent` is the required capability; `none`
models a module that lacks the attribute.  The runner itself returns
`Except.error detail` when the call raises. -/
structure AgentModule where
  run_agent : Option (String → Except String String)

/-- One sample of `evaluate_agent_on_dataset`'s loop: success iff the run
does not raise, the normalized output equals the normalized reference, and
the normalized reference is non-empty.  A raised error is caught and
counted as a non-success. -/
def sampleSuccess (runner : String → Except String String) (s : Sample) : Bool :=
  match runner s.question with
  | Except.error _ => false
  | Except.ok out =>
    extract_final_answer out = extract_final_answer s.answer
      && extract_final_answer s.answer ≠ ""

/-- `evaluate_agent_on_dataset`: 0 for an absent module, a module without
`run_agent`, or an empty dataset; otherwise successes / total. -/
def evaluate_agent_on_dataset (agent_module : Option AgentModule) (dataset : List Sample) : ℚ :=
  match agent_module with
  | none => 0
  | some m =>
    match m.run_agent with
    | none => 0
    | some runner =>
      if dataset = [] then 0
      else ((dataset.filter (sampleSuccess runner)).length : ℚ) / (dataset.length : ℚ)

/-- A failure/success example recorded during failure mining. -/
structure MinedExample where
  question : String
  correct_answer : String
  agent_output : String
deriving DecidableEq

/-- Outcome of one sample inside `find_failures_on_train`'s loop. -/
inductive MineOutcome where
  | failure (e : MinedExample)
  | success (e : MinedExample)
deriving DecidableEq

/-- Classify one sample exactly as the loop body of `find_failures_on_train`
does: a raised error becomes a failure carrying `Runtime Error: <detail>`;
a wrong (or empty-reference) answer becomes a failure carrying
`Wrong Answer: <raw output>`; otherwise a success carrying the raw output. -/
def classifySample (runner : String → Except String String) (s : Sample) : MineOutcome :=
  match runner s.question with
  | Except.error detail =>
    MineOutcome.failure ⟨s.question, s.answer, "Runtime Error: " ++ detail⟩
  | Except.ok out =>
    if extract_final_answer out = extract_final_answer s.answer
        ∧ extract_final_answer s.answer ≠ "" then
      MineOutcome.success ⟨s.question, s.answer, out⟩
    else
      MineOutcome.failure ⟨s.question, s.answer, "Wrong Answer: " ++ out⟩

/-- The failure example a sample contributes, if it fails. -/
def failEx? (runner : String → Except String String) (s : Sample) : Option MinedExample :=
  match classifySample runner s with
  | MineOutcome.failure e => some e
  | MineOutcome.success _ => none

/-- The success example a sample contributes, if it succeeds. -/
def succEx? (runner : String → Except String String) (s : Sample) : Option MinedExample :=
  match classifySample runner s with
  | MineOutcome.failure _ => none
  | MineOutcome.success e => some e

/-- The loop of `find_failures_on_train`: `nf` is the number of failures
accumulated so far (`len(failures)`); the loop breaks at the top of an
iteration once `nf ≥ max_failures`. -/
def mineGo (runner : String → Except String String) (max_failures : Nat) :
    Nat → List Sample → List MinedExample × List MinedExample
  | _, [] => ([], [])
  | nf, s :: rest =>
    if max_failures ≤ nf then ([], [])
    else
      match classifySample runner s with
      | MineOutcome.failure e =>
        let r := mineGo runner max_failures (nf + 1) rest
        (e :: r.1, r.2)
      | MineOutcome.success e =>
        let r := mineGo runner max_failures nf rest
        (r.1, e :: r.2)

/-- `find_failures_on_train`: returns `([], [])` for an absent module or
one without `run_agent`; otherwise iterates the training split (supplied
here in the order produced by the call's fresh shuffle, which is external
randomness) accumulating failures and successes until `max_failures`
failures have been found. -/
def find_failures_on_train (agent_module : Option AgentModule)
    (shuffled_train : List Sample) (max_failures : Nat) :
    List MinedExample × List MinedExample :=
  match agent_module with
  | none => ([], [])
  | some m =>
    match m.run_agent with
    | none => ([], [])
    | some runner => mineGo runner max_failures 0 shuffled_train

/-- Number of failing samples in a list (under `classifySample`). -/
def failCount (runner : String → Except String String) (l : List Sample) : Nat :=
  (l.filterMap (failEx? runner)).length

/- ### Candidate loader (`src/agent_utils.py`, `load_agent_from_file`) -/

/-- The interpreter state touched by `load_agent_from_file`: the search
path `sys.path` and the set of registered module names in `sys.modules`
(modelled as a duplicate-free list of keys). -/
structure SysState where
  path : List String
  modules : List String
deriving DecidableEq

/-- `load_agent_from_file`, as a transition on `SysState`.  `specOk` models
`importlib.util.spec_from_file_location` succeeding; `execRaises` models
`spec.loader.exec_module` raising.  The source registers the module and
pushes the module's directory onto `sys.path` before executing it, and
performs its clean-up (conditional `sys.path.pop(0)` and
`del sys.modules[name]`) only after a successful execution; an exception
jumps to the handler, which returns `None` with the state as-is. -/
def load_agent_from_file (st : SysState) (module_dir module_name : String)
    (specOk execRaises : Bool) : Option Unit × SysState :=
  if ¬specOk then (none, st)
  else
    let st1 : SysState :=
      { st with modules := if module_name ∈ st.modules then st.modules
                           else module_name :: st.modules }
    let st2 : SysState :=
      if module_dir ∈ st1.path then st1
      else { st1 with path := module_dir :: st1.path }
    if execRaises then (none, st2)
    else
      let st3 : SysState :=
        if st2.path.head? = some module_dir then { st2 with path := st2.path.tail }
        else st2
      let st4 : SysState :=
        if module_name ∈ st3.modules then { st3 with modules := st3.modules.erase module_name }
        else st3
      (some (), st4)

example :
    load_agent_from_file ⟨["lib"], ["os"]⟩ "agents" "math_agent_v1" true false
      = (some (), ⟨["lib"], ["os"]⟩) := by decide
example :
    load_agent_from_file ⟨["lib"], ["os"]⟩ "agents" "math_agent_v1" true true
      = (none, ⟨["agents", "lib"], ["math_agent_v1", "os"]⟩) := by decide

/- ### Parent selection (`src/evolution/evolution_loop.py`, `select_parents`) -/

/-- An archive entry.  The Python `id` string `"v<n>"` is represented by
its version number `n`; `path` is the persisted artifact location. -/
structure AgentRec where
  id : Nat
  path : String
  score : ℚ
  children_count : Nat
  parent_id : Option Nat
deriving DecidableEq

/-- `1 / (1 + math.exp(-x))`. -/
noncomputable def sigmoid (x : ℝ) : ℝ :=
  1 / (1 + Real.exp (-x))

/-- The DGM selection weight of one agent:
`sigmoid(λ·(score − α0)) · 1/(1 + children_count)`. -/
noncomputable def selectWeight (lam alpha0 : ℝ) (a : AgentRec) : ℝ :=
  sigmoid (lam * ((a.score : ℝ) - alpha0)) * (1 / (1 + (a.children_count : ℝ)))

/-- The probability vector handed to `np.random.choice`: uniform when the
weights sum to exactly zero, otherwise the weights normalized by their sum. -/
noncomputable def selectProbs (weights : List ℝ) : List ℝ :=
  if weights.sum = 0 then
    List.replicate weights.length (1 / (weights.length : ℝ))
  else
    weights.map (fun w => w / weights.sum)

/-- `select_parents` up to the external random draw: the eligible pool
(records with score < 1.0, falling back to the whole archive) and the
probability vector over it.  An empty archive yields the empty pool, from
which no parent can be drawn. -/
noncomputable def select_parents_dist (archive : List AgentRec) (lam alpha0 : ℝ) :
    List AgentRec × List ℝ :=
  let eligible_set := archive.filter (fun a => a.score < 1)
  if eligible_set = [] ∧ archive = [] then ([], [])
  else
    let pool := if eligible_set = [] then archive else eligible_set
    (pool, selectProbs (pool.map (selectWeight lam alpha0)))

/- ### The evolution loop (`src/evolution/evolution_loop.py`, `run_dgm_loop`),
as a deterministic transition system.  All interactions with the outside
world during one parent's mutation attempt — loading the parent module,
the shuffled order of the training split, reading the parent's source
file, the developer agent's proposal, and loading the persisted child —
are supplied by a per-attempt oracle; everything else is computed by the
embedded functions above. -/

/-- Loop configuration: the sanctioned task model, the mining cap, the
validation split and the agent folder. -/
structure LoopConfig where
  task_model : String
  max_failures_per_child : Nat
  validation_data : List Sample
  agent_folder : String

/-- Loop state: the version counter, the archive, and the set of persisted
child artifacts (identified by version number). -/
structure LoopState where
  counter : Nat
  archive : List AgentRec
  files : List Nat
deriving DecidableEq

/-- Oracle for one parent's mutation attempt. -/
structure AttemptOracle where
  parentModule : Option AgentModule
  shuffledTrain : List Sample
  parentCode : Option String
  newCode : Option String
  childModule : Option AgentModule

/-- `children_count += 1` on the archive entry at position `idx` (the
Python loop mutates the selected parent dict in place, aliased into the
archive). -/
def bumpChildren : List AgentRec → Nat → List AgentRec
  | [], _ => []
  | r :: rs, 0 => { r with children_count := r.children_count + 1 } :: rs
  | r :: rs, n + 1 => r :: bumpChildren rs n

/-- The pathname `agent_folder/math_agent_v<n>.py` of a persisted child. -/
def childPath (cfg : LoopConfig) (n : Nat) : String :=
  cfg.agent_folder ++ "/math_agent_v" ++ toString n ++ ".py"

/-- The body of `for parent_agent in parents` in `run_dgm_loop`, for the
parent at archive position `idx`.  Returns the new state and whether the
developer agent was invoked.  Mirrors the source order: load parent; mine
failures (skip when none); read parent source (skip on `FileNotFoundError`);
call the developer (`if not new_code` discards `None` and `""` alike);
increment the version counter; duplicate check; model-usage check; persist;
load the child; on a functional child bump the parent's `children_count`,
score the child and append its record, otherwise delete the artifact. -/
def processParent (cfg : LoopConfig) (st : LoopState) (idx : Nat) (o : AttemptOracle) :
    LoopState × Bool :=
  match st.archive[idx]? with
  | none => (st, false)
  | some parent_agent =>
    match o.parentModule with
    | none => (st, false)
    | some pm =>
      let mined := find_failures_on_train (some pm) o.shuffledTrain cfg.max_failures_per_child
      if mined.1 = [] then (st, false)
      else
        match o.parentCode with
        | none => (st, false)
        | some parent_code =>
          match o.newCode with
          | none => (st, true)
          | some new_code =>
            if new_code = "" then (st, true)
            else
              let counter1 := st.counter + 1
              if pyStrip new_code = pyStrip parent_code then
                ({ st with counter := counter1 }, true)
              else if ¬ validate_agent_model_usage new_code cfg.task_model then
                ({ st with counter := counter1 }, true)
              else
                let files1 := if counter1 ∈ st.files then st.files else counter1 :: st.files
                match o.childModule with
                | some cm =>
                  if cm.run_agent.isSome then
                    let child : AgentRec :=
                      { id := counter1
                        path := childPath cfg counter1
                        score := evaluate_agent_on_dataset (some cm) cfg.validation_data
                        children_count := 0
                        parent_id := some parent_agent.id }
                    ({ counter := counter1
                       archive := bumpChildren st.archive idx ++ [child]
                       files := files1 }, true)
                  else
                    ({ st with counter := counter1, files := files1.erase counter1 }, true)
                | none =>
                  ({ st with counter := counter1, files := files1.erase counter1 }, true)

/-- Process one iteration's selected parents in order. -/
def runParents (cfg : LoopConfig) : LoopState → List (Nat × AttemptOracle) → LoopState
  | st, [] => st
  | st, p :: rest => runParents cfg (processParent cfg st p.1 p.2).1 rest

/-- Run the remaining iterations; an iteration whose selected-parent list
is empty breaks out of the loop (`if not parents: break`). -/
def runIterations (cfg : LoopConfig) : LoopState → List (List (Nat × AttemptOracle)) → LoopState
  | st, [] => st
  | st, it :: rest =>
    if it.isEmpty then st else runIterations cfg (runParents cfg st it) rest

/-- `run_dgm_loop`: the seed must load and expose `run_agent` or the run
aborts (`none`); otherwise the seed is scored on the validation split,
becomes record `v0`, and the iterations run.  The final state is returned
(the source then reports the best-scoring record of the final archive). -/
def run_dgm_loop (cfg : LoopConfig) (start_agent_path : String)
    (seedModule : Option AgentModule)
    (iterations : List (List (Nat × AttemptOracle))) : Option LoopState :=
  match seedModule with
  | none => none
  | some m =>
    match m.run_agent with
    | none => none
    | some _ =>
      let g0 : AgentRec :=
        { id := 0
          path := start_agent_path
          score := evaluate_agent_on_dataset (some m) cfg.validation_data
          children_count := 0
          parent_id := none }
      some (runIterations cfg ⟨0, [g0], []⟩ iterations)

/-- The immutable part of an archive record: identifier, score, parent.
(Only `children_count` is ever mutated in place by the loop.) -/
def archiveKeys (l : List AgentRec) : List (Nat × ℚ × Option Nat) :=
  l.map (fun r => (r.id, r.score, r.parent_id))

/-- Loop-state well-formedness: no duplicate identifiers in the archive,
and every identifier is at most the version counter. -/
def ArchiveWF (st : LoopState) : Prop :=
  (st.archive.map (fun r => r.id)).Nodup ∧ ∀ r ∈ st.archive, r.id ≤ st.counter

instance (st : LoopState) : Decidable (ArchiveWF st) := by
  unfold ArchiveWF
  infer_instance

/- ### C1: parent-selection distribution -/

/-- C1: `select_parents` takes the eligible set to be the records with
score strictly below 1.0, falls back to the entire archive when that
subset is empty, and yields the empty pool (hence no parents) on an empty
archive; each pool member is weighted
`sigmoid(λ·(score − α0)) · 1/(1 + children_count)` with
`sigmoid(x) = 1/(1+e^−x)`, and a weight vector summing to exactly zero
falls back to the uniform distribution over the pool. -/
theorem select_parents_distribution_correct :
    (∀ lam alpha0 : ℝ, select_parents_dist [] lam alpha0 = ([], []))
    ∧ (∀ (archive : List AgentRec) (lam alpha0 : ℝ), archive ≠ [] →
        (select_parents_dist archive lam alpha0).1
          = (if archive.filter (fun a => a.score < 1) = []
             then archive else archive.filter (fun a => a.score < 1))
        ∧ (select_parents_dist archive lam alpha0).2
          = selectProbs ((select_parents_dist archive lam alpha0).1.map
              (fun a => (1 / (1 + Real.exp (-(lam * ((a.score : ℝ) - alpha0)))))
                * (1 / (1 + (a.children_count : ℝ))))))
    ∧ (∀ weights : List ℝ, weights.sum = 0 →
        selectProbs weights = List.replicate weights.length (1 / (weights.length : ℝ))) := by
  refine ⟨?_, ?_, ?_⟩
  · intro lam alpha0
    simp [select_parents_dist]
  · intro archive lam alpha0 hne
    constructor
    · simp [select_parents_dist, hne]
    · have hw : (selectWeight lam alpha0)
          = fun a : AgentRec => (1 / (1 + Real.exp (-(lam * ((a.score : ℝ) - alpha0)))))
            * (1 / (1 + (a.children_count : ℝ))) := by
        funext a
        simp [selectWeight, sigmoid]
      simp [select_parents_dist, hne, hw]
  · intro weights h
    simp [selectProbs, h]

theorem select_parents_distribution_correct_witness :
    (select_parents_dist [⟨0, "seed.py", 1/2, 0, none⟩] 1 0).1 = [⟨0, "seed.py", 1/2, 0, none⟩]
    ∧ selectProbs [0, 0] = [1/2, 1/2] := by
  constructor
  · have h2 := (select_parents_distribution_correct.2.1
      [⟨0, "seed.py", 1/2, 0, none⟩] 1 0 (by simp)).1
    rw [h2]
    norm_num [List.filter]
  · have h3 := select_parents_distribution_correct.2.2 [0, 0] (by norm_num)
    rw [h3]
    norm_num [List.replicate]

/- ### C4: the loader leaks interpreter state on a failed execution -/

/-- C4 fails on the code: when `spec.loader.exec_module` raises, the
`except` handler returns `None` without popping `sys.path` or deleting the
`sys.modules` entry, so a load failure leaves the artifact's directory on
the search path and its namespace registered under its logical name.
Evaluated at the failing input (clean interpreter state, artifact whose
top-level execution raises): the returned state differs from the initial
one, retaining both modifications. -/
theorem load_agent_leaks_state_on_exec_error :
    load_agent_from_file ⟨[], []⟩ "agents" "math_agent_v1" true true
      = (none, ⟨["agents"], ["math_agent_v1"]⟩)
    ∧ (load_agent_from_file ⟨[], []⟩ "agents" "math_agent_v1" true true).2 ≠ ⟨[], []⟩ := by
  decide

/- ### C2: scoring on a dataset split -/

/-- C2: `score` counts a sample as a success exactly when the run does not
raise, the normalized output equals the normalized reference, and the
normalized reference is non-empty; it returns successes/total, returns 0
for an absent candidate, a candidate without the run capability, or an
empty split; and an error raised during one sample's run is counted as a
non-success while the remaining samples are still evaluated. -/
theorem evaluate_agent_accuracy_correct :
    (∀ (runner : String → Except String String) (s : Sample),
        sampleSuccess runner s = true
          ↔ ∃ out, runner s.question = Except.ok out
              ∧ extract_final_answer out = extract_final_answer s.answer
              ∧ extract_final_answer s.answer ≠ "")
    ∧ (∀ dataset, evaluate_agent_on_dataset none dataset = 0)
    ∧ (∀ (m : AgentModule) (dataset : List Sample),
        m.run_agent = none → evaluate_agent_on_dataset (some m) dataset = 0)
    ∧ (∀ m, evaluate_agent_on_dataset m [] = 0)
    ∧ (∀ (m : AgentModule) (runner : String → Except String String)
          (dataset : List Sample),
        m.run_agent = some runner → dataset ≠ [] →
        evaluate_agent_on_dataset (some m) dataset
          = ((dataset.filter (sampleSuccess runner)).length : ℚ) / (dataset.length : ℚ))
    ∧ (∀ (runner : String → Except String String) (pre post : List Sample)
          (s : Sample) (e : String),
        runner s.question = Except.error e →
        sampleSuccess runner s = false
        ∧ (pre ++ s :: post).filter (sampleSuccess runner)
            = pre.filter (sampleSuccess runner) ++ post.filter (sampleSuccess runner)) := by
  refine ⟨?_, ?_, ?_, ?_, ?_, ?_⟩
  · intro runner s
    cases h : runner s.question with
    | error e => simp [sampleSuccess, h]
    | ok out => simp [sampleSuccess, h]
  · intro dataset
    simp [evaluate_agent_on_dataset]
  · intro m dataset hrun
    simp [evaluate_agent_on_dataset, hrun]
  · intro m
    cases m with
    | none => simp [evaluate_agent_on_dataset]
    | some mm =>
      cases hr : mm.run_agent with
      | none => simp [evaluate_agent_on_dataset, hr]
      | some runner => simp [evaluate_agent_on_dataset, hr]
  · intro m runner dataset hrun hne
    simp [evaluate_agent_on_dataset, hrun, hne]
  · intro runner pre post s e h
    have hs : sampleSuccess runner s = false := by simp [sampleSuccess, h]
    refine ⟨hs, ?_⟩
    simp [List.filter_append, List.filter_cons, hs]

theorem evaluate_agent_accuracy_correct_witness :
    evaluate_agent_on_dataset
        (some ⟨some (fun q => if q = "a" then Except.ok "#### 4" else Except.error "boom")⟩)
        [⟨"a", "#### 4"⟩, ⟨"b", "#### 5"⟩] = 1 / 2
    ∧ sampleSuccess
        (fun q => if q = "a" then Except.ok "#### 4" else Except.error "boom")
        ⟨"a", "#### 4"⟩ = true := by
  constructor
  · have h := evaluate_agent_accuracy_correct.2.2.2.2.1
      ⟨some (fun q => if q = "a" then Except.ok "#### 4" else Except.error "boom")⟩
      (fun q => if q = "a" then Except.ok "#### 4" else Except.error "boom")
      [⟨"a", "#### 4"⟩, ⟨"b", "#### 5"⟩] rfl (by simp)
    rw [h]
    have hf : List.filter
        (sampleSuccess (fun q => if q = "a" then Except.ok "#### 4" else Except.error "boom"))
        [⟨"a", "#### 4"⟩, ⟨"b", "#### 5"⟩] = [⟨"a", "#### 4"⟩] := by decide
    rw [hf]
    norm_num
  · exact ((evaluate_agent_accuracy_correct.1
      (fun q => if q = "a" then Except.ok "#### 4" else Except.error "boom")
      ⟨"a", "#### 4"⟩).mpr ⟨"#### 4", rfl, by decide, by decide⟩)

/- ### Lemmas about the failure-mining loop -/

theorem failEx_succEx_of_failure {runner : String → Except String String} {s : Sample}
    {e : MinedExample} (h : classifySample runner s = MineOutcome.failure e) :
    failEx? runner s = some e ∧ succEx? runner s = none := by
  constructor <;> simp [failEx?, succEx?, h]

theorem failEx_succEx_of_success {runner : String → Except String String} {s : Sample}
    {e : MinedExample} (h : classifySample runner s = MineOutcome.success e) :
    failEx? runner s = none ∧ succEx? runner s = some e := by
  constructor <;> simp [failEx?, succEx?, h]

/-- Processing a prefix with fewer failures than the cap leaves: the prefix
is fully classified and the loop continues on the remainder with the
accumulated failure count. -/
theorem mineGo_append (runner : String → Except String String) (maxF : Nat) :
    ∀ (xs ys : List Sample) (nf : Nat), nf + failCount runner xs < maxF →
      mineGo runner maxF nf (xs ++ ys)
        = (xs.filterMap (failEx? runner)
            ++ (mineGo runner maxF (nf + failCount runner xs) ys).1,
           xs.filterMap (succEx? runner)
            ++ (mineGo runner maxF (nf + failCount runner xs) ys).2) := by
  intro xs
  induction xs with
  | nil =>
    intro ys nf h
    simp [failCount]
  | cons s rest ih =>
    intro ys nf h
    have hnotbreak : ¬ maxF ≤ nf := by
      have : nf ≤ nf + failCount runner (s :: rest) := Nat.le_add_right _ _
      omega
    cases hc : classifySample runner s with
    | failure e =>
      have hfs := failEx_succEx_of_failure hc
      have hfc : failCount runner (s :: rest) = failCount runner rest + 1 := by
        simp [failCount, List.filterMap_cons, hfs.1]
      have hih := ih ys (nf + 1) (by omega)
      have hstep : mineGo runner maxF nf ((s :: rest) ++ ys)
          = (e :: (mineGo runner maxF (nf + 1) (rest ++ ys)).1,
             (mineGo runner maxF (nf + 1) (rest ++ ys)).2) := by
        simp only [List.cons_append, mineGo, hc, if_neg hnotbreak, List.append_eq]
      rw [hstep, hih]
      simp only [List.filterMap_cons, hfs.1, hfs.2, hfc, List.cons_append]
      have harith : nf + 1 + failCount runner rest = nf + (failCount runner rest + 1) := by
        omega
      rw [harith]
    | success e =>
      have hfs := failEx_succEx_of_success hc
      have hfc : failCount runner (s :: rest) = failCount runner rest := by
        simp [failCount, List.filterMap_cons, hfs.1]
      have hih := ih ys nf (by omega)
      have hstep : mineGo runner maxF nf ((s :: rest) ++ ys)
          = ((mineGo runner maxF nf (rest ++ ys)).1,
             e :: (mineGo runner maxF nf (rest ++ ys)).2) := by
        simp only [List.cons_append, mineGo, hc, if_neg hnotbreak, List.append_eq]
      rw [hstep, hih]
      simp only [List.filterMap_cons, hfs.1, hfs.2, hfc, List.cons_append]

/-- On an all-failing list the loop returns `min (maxF − nf)` failures and
no successes. -/
theorem mineGo_all_fail (runner : String → Except String String) (maxF : Nat) :
    ∀ (samples : List Sample) (nf : Nat),
      (∀ s ∈ samples, (failEx? runner s).isSome) →
      (mineGo runner maxF nf samples).1.length = min (maxF - nf) samples.length
      ∧ (mineGo runner maxF nf samples).2 = [] := by
  intro samples
  induction samples with
  | nil =>
    intro nf h
    simp [mineGo]
  | cons s rest ih =>
    intro nf h
    by_cases hb : maxF ≤ nf
    · have hz : maxF - nf = 0 := by omega
      constructor <;> simp [mineGo, hb, hz]
    · have hfail : (failEx? runner s).isSome := h s (by simp)
      cases hc : classifySample runner s with
      | success e =>
        rw [(failEx_succEx_of_success hc).1] at hfail
        simp at hfail
      | failure e =>
        have hih := ih (nf + 1) (fun x hx => h x (by simp [hx]))
        have hstep : mineGo runner maxF nf (s :: rest)
            = (e :: (mineGo runner maxF (nf + 1) rest).1,
               (mineGo runner maxF (nf + 1) rest).2) := by
          simp only [mineGo, hc, if_neg hb]
        rw [hstep]
        constructor
        · simp only [List.length_cons, hih.1]
          omega
        · exact hih.2

/-- The returned lists are exactly the classification of the processed
prefix of the split: every processed sample lands in exactly one of them. -/
theorem mineGo_partition (runner : String → Except String String) (maxF : Nat) :
    ∀ (samples : List Sample) (nf : Nat),
      ∃ n, n ≤ samples.length
        ∧ (mineGo runner maxF nf samples).1
            = (samples.take n).filterMap (failEx? runner)
        ∧ (mineGo runner maxF nf samples).2
            = (samples.take n).filterMap (succEx? runner) := by
  intro samples
  induction samples with
  | nil =>
    intro nf
    exact ⟨0, by simp [mineGo]⟩
  | cons s rest ih =>
    intro nf
    by_cases hb : maxF ≤ nf
    · exact ⟨0, by simp [mineGo, hb]⟩
    · cases hc : classifySample runner s with
      | failure e =>
        obtain ⟨n, hn, h1, h2⟩ := ih (nf + 1)
        have hfs := failEx_succEx_of_failure hc
        refine ⟨n + 1, by simpa using Nat.succ_le_succ hn, ?_, ?_⟩
        · have hstep : (mineGo runner maxF nf (s :: rest)).1
              = e :: (mineGo runner maxF (nf + 1) rest).1 := by
            simp only [mineGo, hc, if_neg hb]
          rw [hstep, h1, List.take_succ_cons, List.filterMap_cons, hfs.1]
        · have hstep : (mineGo runner maxF nf (s :: rest)).2
              = (mineGo runner maxF (nf + 1) rest).2 := by
            simp only [mineGo, hc, if_neg hb]
          rw [hstep, h2, List.take_succ_cons, List.filterMap_cons, hfs.2]
      | success e =>
        obtain ⟨n, hn, h1, h2⟩ := ih nf
        have hfs := failEx_succEx_of_success hc
        refine ⟨n + 1, by simpa using Nat.succ_le_succ hn, ?_, ?_⟩
        · have hstep : (mineGo runner maxF nf (s :: rest)).1
              = (mineGo runner maxF nf rest).1 := by
            simp only [mineGo, hc, if_neg hb]
          rw [hstep, h1, List.take_succ_cons, List.filterMap_cons, hfs.1]
        · have hstep : (mineGo runner maxF nf (s :: rest)).2
              = e :: (mineGo runner maxF nf rest).2 := by
            simp only [mineGo, hc, if_neg hb]
          rw [hstep, h2, List.take_succ_cons, List.filterMap_cons, hfs.2]

/-- On an all-succeeding list with a positive cap every sample is returned
as a success: the cap never limits successes. -/
theorem mineGo_all_success (runner : String → Except String String) (maxF : Nat) :
    ∀ (samples : List Sample) (nf : Nat), nf < maxF →
      (∀ s ∈ samples, (succEx? runner s).isSome) →
      (mineGo runner maxF nf samples).1 = []
      ∧ (mineGo runner maxF nf samples).2.length = samples.length := by
  intro samples
  induction samples with
  | nil =>
    intro nf hn h
    simp [mineGo]
  | cons s rest ih =>
    intro nf hn h
    have hb : ¬ maxF ≤ nf := by omega
    have hsucc : (succEx? runner s).isSome := h s (by simp)
    cases hc : classifySample runner s with
    | failure e =>
      rw [(failEx_succEx_of_failure hc).2] at hsucc
      simp at hsucc
    | success e =>
      have hih := ih nf hn (fun x hx => h x (by simp [hx]))
      have hstep : mineGo runner maxF nf (s :: rest)
          = ((mineGo runner maxF nf rest).1,
             e :: (mineGo runner maxF nf rest).2) := by
        simp only [mineGo, hc, if_neg hb]
      rw [hstep]
      exact ⟨hih.1, by simp [hih.2]⟩

/- ### C3: the failure cap and the processed-prefix partition -/

/-- C3: with `max_failures = N` mining stops as soon as `N` failures have
accumulated — on an all-failing split larger than `N` it returns exactly
`N` failures and no successes without exhausting the split; the returned
lists are exactly the classification of the processed prefix, so every
processed sample appears in exactly one of them; and an all-succeeding
split (with a positive cap) returns every sample as a success, exhibiting
that successes are not capped. -/
theorem find_failures_cap_and_partition :
    ∀ (runner : String → Except String String) (samples : List Sample) (N : Nat),
      ((∀ s ∈ samples, (failEx? runner s).isSome) → N < samples.length →
        (find_failures_on_train (some ⟨some runner⟩) samples N).1.length = N
        ∧ (find_failures_on_train (some ⟨some runner⟩) samples N).2 = []
        ∧ (find_failures_on_train (some ⟨some runner⟩) samples N).1.length
            + (find_failures_on_train (some ⟨some runner⟩) samples N).2.length
            < samples.length)
      ∧ (∃ n, n ≤ samples.length
          ∧ (find_failures_on_train (some ⟨some runner⟩) samples N).1
              = (samples.take n).filterMap (failEx? runner)
          ∧ (find_failures_on_train (some ⟨some runner⟩) samples N).2
              = (samples.take n).filterMap (succEx? runner))
      ∧ (0 < N → (∀ s ∈ samples, (succEx? runner s).isSome) →
          (find_failures_on_train (some ⟨some runner⟩) samples N).2.length
            = samples.length) := by
  intro runner samples N
  have hf : find_failures_on_train (some ⟨some runner⟩) samples N
      = mineGo runner N 0 samples := rfl
  refine ⟨?_, ?_, ?_⟩
  · intro hall hlen
    have h := mineGo_all_fail runner N samples 0 hall
    have hmin : min (N - 0) samples.length = N := by omega
    rw [hf]
    refine ⟨by rw [h.1, hmin], h.2, ?_⟩
    rw [h.1, h.2, hmin]
    simpa using hlen
  · rw [hf]
    exact mineGo_partition runner N samples 0
  · intro hN hall
    rw [hf]
    exact (mineGo_all_success runner N samples 0 hN hall).2

theorem find_failures_cap_and_partition_witness :
    (find_failures_on_train (some ⟨some (fun _ => Except.ok "0")⟩)
        [⟨"q1", "#### 1"⟩, ⟨"q2", "#### 1"⟩, ⟨"q3", "#### 1"⟩] 2).1.length = 2
    ∧ (find_failures_on_train (some ⟨some (fun _ => Except.ok "0")⟩)
        [⟨"q1", "#### 1"⟩, ⟨"q2", "#### 1"⟩, ⟨"q3", "#### 1"⟩] 2).2 = [] := by
  have h := (find_failures_cap_and_partition (fun _ => Except.ok "0")
    [⟨"q1", "#### 1"⟩, ⟨"q2", "#### 1"⟩, ⟨"q3", "#### 1"⟩] 2).1 (by decide) (by decide)
  exact ⟨h.1, h.2.1⟩

/- ### C9: runtime errors during mining are recorded as failures -/

/-- C9: a sample whose run raises is recorded in the failures list — never
silently dropped — with `Runtime Error: <detail>` stored as its observed
output, and mining continues with the remaining samples (the lists after
it are exactly those produced by continuing the loop on the remainder). -/
theorem mine_failures_records_runtime_errors :
    ∀ (runner : String → Except String String) (pre post : List Sample)
      (s : Sample) (detail : String) (maxF : Nat),
      runner s.question = Except.error detail →
      failCount runner pre < maxF →
      (find_failures_on_train (some ⟨some runner⟩) (pre ++ s :: post) maxF).1
          = pre.filterMap (failEx? runner)
            ++ ⟨s.question, s.answer, "Runtime Error: " ++ detail⟩
               :: (mineGo runner maxF (failCount runner pre + 1) post).1
      ∧ (find_failures_on_train (some ⟨some runner⟩) (pre ++ s :: post) maxF).2
          = pre.filterMap (succEx? runner)
            ++ (mineGo runner maxF (failCount runner pre + 1) post).2
      ∧ (⟨s.question, s.answer, "Runtime Error: " ++ detail⟩ : MinedExample)
          ∈ (find_failures_on_train (some ⟨some runner⟩) (pre ++ s :: post) maxF).1 := by
  intro runner pre post s detail maxF herr hcap
  have hclass : classifySample runner s
      = MineOutcome.failure ⟨s.question, s.answer, "Runtime Error: " ++ detail⟩ := by
    simp [classifySample, herr]
  have hf : find_failures_on_train (some ⟨some runner⟩) (pre ++ s :: post) maxF
      = mineGo runner maxF 0 (pre ++ s :: post) := rfl
  have happ := mineGo_append runner maxF pre (s :: post) 0 (by omega)
  rw [Nat.zero_add] at happ
  have hstep : mineGo runner maxF (failCount runner pre) (s :: post)
      = (⟨s.question, s.answer, "Runtime Error: " ++ detail⟩
           :: (mineGo runner maxF (failCount runner pre + 1) post).1,
         (mineGo runner maxF (failCount runner pre + 1) post).2) := by
    have hb : ¬ maxF ≤ failCount runner pre := by omega
    simp only [mineGo, hclass, if_neg hb]
  have h1 : (find_failures_on_train (some ⟨some runner⟩) (pre ++ s :: post) maxF).1
      = pre.filterMap (failEx? runner)
        ++ ⟨s.question, s.answer, "Runtime Error: " ++ detail⟩
           :: (mineGo runner maxF (failCount runner pre + 1) post).1 := by
    rw [hf, happ, hstep]
  refine ⟨h1, ?_, ?_⟩
  · rw [hf, happ, hstep]
  · rw [h1]
    simp

theorem mine_failures_records_runtime_errors_witness :
    (⟨"qerr", "#### 2", "Runtime Error: ZeroDivisionError"⟩ : MinedExample)
      ∈ (find_failures_on_train
          (some ⟨some (fun q => if q = "qerr"
            then Except.error "ZeroDivisionError" else Except.ok "#### 1")⟩)
          ([⟨"q1", "#### 1"⟩] ++ ⟨"qerr", "#### 2"⟩ :: []) 3).1 :=
  (mine_failures_records_runtime_errors
    (fun q => if q = "qerr" then Except.error "ZeroDivisionError" else Except.ok "#### 1")
    [⟨"q1", "#### 1"⟩] [] ⟨"qerr", "#### 2"⟩ "ZeroDivisionError" 3 rfl (by decide)).2.2

/- ### C10: non-functional parents are skipped without a developer call -/

/-- C10: `find_failures_on_train` on an absent candidate or one lacking
the run capability returns two empty lists (it is total, so it cannot
raise), and in the loop body such a parent therefore mines zero failures
and is skipped for the iteration with the state unchanged and without the
developer agent being invoked. -/
theorem nonfunctional_parent_skipped :
    (∀ (ds : List Sample) (N : Nat), find_failures_on_train none ds N = ([], []))
    ∧ (∀ (m : AgentModule) (ds : List Sample) (N : Nat),
        m.run_agent = none → find_failures_on_train (some m) ds N = ([], []))
    ∧ (∀ (cfg : LoopConfig) (st : LoopState) (idx : Nat) (o : AttemptOracle)
        (pm : AgentModule),
        o.parentModule = some pm → pm.run_agent = none →
        processParent cfg st idx o = (st, false)) := by
  refine ⟨?_, ?_, ?_⟩
  · intro ds N
    rfl
  · intro m ds N h
    simp [find_failures_on_train, h]
  · intro cfg st idx o pm hpm hrun
    cases hg : st.archive[idx]? with
    | none => simp [processParent, hg]
    | some parent =>
      simp [processParent, hg, hpm, find_failures_on_train, hrun]

theorem nonfunctional_parent_skipped_witness :
    find_failures_on_train (some ⟨none⟩) [⟨"q", "#### 1"⟩] 5 = ([], [])
    ∧ processParent ⟨"gpt-4o-mini", 5, [], "agents"⟩
        ⟨0, [⟨0, "seed.py", 0, 0, none⟩], []⟩ 0
        ⟨some ⟨none⟩, [⟨"q", "#### 1"⟩], none, none, none⟩
      = (⟨0, [⟨0, "seed.py", 0, 0, none⟩], []⟩, false) := by
  constructor
  · exact nonfunctional_parent_skipped.2.1 ⟨none⟩ [⟨"q", "#### 1"⟩] 5 rfl
  · exact nonfunctional_parent_skipped.2.2 ⟨"gpt-4o-mini", 5, [], "agents"⟩
      ⟨0, [⟨0, "seed.py", 0, 0, none⟩], []⟩ 0
      ⟨some ⟨none⟩, [⟨"q", "#### 1"⟩], none, none, none⟩ ⟨none⟩ rfl rfl

/- ### C8: failed child load discards cleanly -/

/-- C8: an accepted proposal (developer produced non-empty code, distinct
from the parent after trimming, passing the model-usage check) whose
persisted artifact then fails to load or lacks the run capability is
discarded cleanly: the persisted artifact is removed again, the archive —
including the parent's `children_count` — is unchanged, and only the
version counter keeps the attempted child's identifier. -/
theorem child_load_failure_discard_clean :
    ∀ (cfg : LoopConfig) (st : LoopState) (idx : Nat) (o : AttemptOracle)
      (parent : AgentRec) (pm : AgentModule) (parent_code new_code : String),
      st.archive[idx]? = some parent →
      o.parentModule = some pm →
      (find_failures_on_train (some pm) o.shuffledTrain cfg.max_failures_per_child).1 ≠ [] →
      o.parentCode = some parent_code →
      o.newCode = some new_code →
      new_code ≠ "" →
      pyStrip new_code ≠ pyStrip parent_code →
      validate_agent_model_usage new_code cfg.task_model = true →
      (o.childModule = none ∨ ∃ cm, o.childModule = some cm ∧ cm.run_agent = none) →
      st.counter + 1 ∉ st.files →
      processParent cfg st idx o = ({ st with counter := st.counter + 1 }, true) := by
  intro cfg st idx o parent pm parent_code new_code hg hpm hmine hpc hnc hne hdup hval hchild hfresh
  have hfiles : ((if st.counter + 1 ∈ st.files then st.files
      else (st.counter + 1) :: st.files).erase (st.counter + 1)) = st.files := by
    rw [if_neg hfresh]
    exact List.erase_cons_head _ _
  rcases hchild with hnone | ⟨cm, hcm, hcrun⟩
  · simp [processParent, hg, hpm, hmine, hpc, hnc, hne, hdup, hval, hnone, hfiles]
  · have hrs : cm.run_agent.isSome = false := by simp [hcrun]
    simp [processParent, hg, hpm, hmine, hpc, hnc, hne, hdup, hval, hcm, hrs, hfiles]

theorem child_load_failure_discard_clean_witness :
    processParent ⟨"gpt-4o-mini", 5, [], "agents"⟩
        ⟨0, [⟨0, "seed.py", 0, 0, none⟩], []⟩ 0
        ⟨some ⟨some (fun _ => Except.ok "0")⟩, [⟨"q", "#### 1"⟩],
         some "seedcode", some "newcode", none⟩
      = (⟨1, [⟨0, "seed.py", 0, 0, none⟩], []⟩, true) :=
  child_load_failure_discard_clean ⟨"gpt-4o-mini", 5, [], "agents"⟩
    ⟨0, [⟨0, "seed.py", 0, 0, none⟩], []⟩ 0
    ⟨some ⟨some (fun _ => Except.ok "0")⟩, [⟨"q", "#### 1"⟩],
     some "seedcode", some "newcode", none⟩
    ⟨0, "seed.py", 0, 0, none⟩ ⟨some (fun _ => Except.ok "0")⟩ "seedcode" "newcode"
    rfl rfl (by decide) rfl rfl (by decide) (by decide) (by decide)
    (Or.inl rfl) (by decide)

/- ### Lemmas for the loop archive invariants -/

theorem bumpChildren_map_id :
    ∀ (l : List AgentRec) (i : Nat),
      (bumpChildren l i).map (fun r => r.id) = l.map (fun r => r.id) := by
  intro l
  induction l with
  | nil =>
    intro i
    rfl
  | cons r rs ih =>
    intro i
    cases i with
    | zero => simp [bumpChildren]
    | succ n => simp [bumpChildren, ih n]

theorem bumpChildren_archiveKeys :
    ∀ (l : List AgentRec) (i : Nat), archiveKeys (bumpChildren l i) = archiveKeys l := by
  intro l
  induction l with
  | nil =>
    intro i
    rfl
  | cons r rs ih =>
    intro i
    cases i with
    | zero => simp [bumpChildren, archiveKeys]
    | succ n =>
      have hn := ih n
      simp only [archiveKeys, List.map_cons] at hn ⊢
      simp [bumpChildren, hn]

theorem archiveKeys_append (a b : List AgentRec) :
    archiveKeys (a ++ b) = archiveKeys a ++ archiveKeys b := by
  simp [archiveKeys]

/-- One parent attempt either leaves the archive untouched (moving the
counter by at most one), or appends exactly one child — with identifier
`counter + 1` — after bumping one `children_count`. -/
theorem processParent_shape (cfg : LoopConfig) (st : LoopState) (idx : Nat) (o : AttemptOracle) :
    ((processParent cfg st idx o).1.archive = st.archive
      ∧ (processParent cfg st idx o).1.files = st.files
        ∨ (processParent cfg st idx o).1.archive = st.archive)
      ∧ st.counter ≤ (processParent cfg st idx o).1.counter
      ∧ (processParent cfg st idx o).1.counter ≤ st.counter + 1
    ∨ (∃ child : AgentRec, child.id = st.counter + 1
        ∧ (processParent cfg st idx o).1.archive = bumpChildren st.archive idx ++ [child]
        ∧ (processParent cfg st idx o).1.counter = st.counter + 1) := by
  cases hg : st.archive[idx]? with
  | none =>
    left
    simp [processParent, hg]
  | some parent =>
    cases hpm : o.parentModule with
    | none =>
      left
      simp [processParent, hg, hpm]
    | some pm =>
      by_cases hmine :
          (find_failures_on_train (some pm) o.shuffledTrain cfg.max_failures_per_child).1 = []
      · left
        simp [processParent, hg, hpm, hmine]
      · cases hpc : o.parentCode with
        | none =>
          left
          simp [processParent, hg, hpm, hmine, hpc]
        | some parent_code =>
          cases hnc : o.newCode with
          | none =>
            left
            simp [processParent, hg, hpm, hmine, hpc, hnc]
          | some new_code =>
            by_cases hne : new_code = ""
            · left
              simp [processParent, hg, hpm, hmine, hpc, hnc, hne]
            · by_cases hdup : pyStrip new_code = pyStrip parent_code
              · left
                simp [processParent, hg, hpm, hmine, hpc, hnc, hne, hdup]
              · by_cases hval : validate_agent_model_usage new_code cfg.task_model = true
                · cases hcm : o.childModule with
                  | none =>
                    left
                    simp [processParent, hg, hpm, hmine, hpc, hnc, hne, hdup, hval, hcm]
                  | some cm =>
                    cases hrs : cm.run_agent with
                    | none =>
                      left
                      have hb : cm.run_agent.isSome = false := by simp [hrs]
                      simp [processParent, hg, hpm, hmine, hpc, hnc, hne, hdup, hval, hcm, hb]
                    | some runner =>
                      right
                      have hb : cm.run_agent.isSome = true := by simp [hrs]
                      refine ⟨{ id := st.counter + 1
                                path := childPath cfg (st.counter + 1)
                                score := evaluate_agent_on_dataset (some cm) cfg.validation_data
                                children_count := 0
                                parent_id := some parent.id }, rfl, ?_, ?_⟩ <;>
                        simp [processParent, hg, hpm, hmine, hpc, hnc, hne, hdup, hval, hcm, hb]
                · left
                  simp [processParent, hg, hpm, hmine, hpc, hnc, hne, hdup, hval]

/-- One parent attempt preserves well-formedness and extends the archive's
immutable keys. -/
theorem processParent_preserves (cfg : LoopConfig) (st : LoopState) (idx : Nat)
    (o : AttemptOracle) (h : ArchiveWF st) :
    ArchiveWF (processParent cfg st idx o).1
    ∧ archiveKeys st.archive <+: archiveKeys (processParent cfg st idx o).1.archive := by
  obtain ⟨hnd, hbound⟩ := h
  rcases processParent_shape cfg st idx o with ⟨harch, hc1, hc2⟩ | ⟨child, hid, harch, hcnt⟩
  · have harch2 : (processParent cfg st idx o).1.archive = st.archive := by
      rcases harch with ⟨h1, _⟩ | h1 <;> exact h1
    refine ⟨⟨?_, ?_⟩, ?_⟩
    · rw [harch2]
      exact hnd
    · rw [harch2]
      intro r hr
      exact le_trans (hbound r hr) hc1
    · rw [harch2]
  · constructor
    · constructor
      · rw [harch, List.map_append, bumpChildren_map_id]
        refine List.Nodup.append hnd (List.nodup_singleton _) ?_
        intro a ha hb
        simp only [List.map_cons, List.map_nil, List.mem_singleton] at hb
        obtain ⟨r, hr, hrid⟩ := List.mem_map.mp ha
        have hle := hbound r hr
        rw [hb, hid] at hrid
        omega
      · rw [harch, hcnt]
        intro r hr
        rcases List.mem_append.mp hr with hr1 | hr2
        · have hmem : r.id ∈ (bumpChildren st.archive idx).map (fun r => r.id) :=
            List.mem_map_of_mem _ hr1
          rw [bumpChildren_map_id] at hmem
          obtain ⟨r', hr', hrid⟩ := List.mem_map.mp hmem
          have := hbound r' hr'
          omega
        · have : r = child := by simpa using hr2
          rw [this, hid]
    · rw [harch, archiveKeys_append, bumpChildren_archiveKeys]
      exact ⟨archiveKeys [child], rfl⟩

theorem runParents_preserves (cfg : LoopConfig) :
    ∀ (ps : List (Nat × AttemptOracle)) (st : LoopState), ArchiveWF st →
      ArchiveWF (runParents cfg st ps)
      ∧ archiveKeys st.archive <+: archiveKeys (runParents cfg st ps).archive := by
  intro ps
  induction ps with
  | nil =>
    intro st h
    exact ⟨h, List.prefix_refl _⟩
  | cons p rest ih =>
    intro st h
    have h1 := processParent_preserves cfg st p.1 p.2 h
    have h2 := ih (processParent cfg st p.1 p.2).1 h1.1
    exact ⟨h2.1, h1.2.trans h2.2⟩

theorem runIterations_preserves (cfg : LoopConfig) :
    ∀ (its : List (List (Nat × AttemptOracle))) (st : LoopState), ArchiveWF st →
      ArchiveWF (runIterations cfg st its)
      ∧ archiveKeys st.archive <+: archiveKeys (runIterations cfg st its).archive := by
  intro its
  induction its with
  | nil =>
    intro st h
    exact ⟨h, List.prefix_refl _⟩
  | cons it rest ih =>
    intro st h
    by_cases hit : it.isEmpty
    · have : runIterations cfg st (it :: rest) = st := by
        simp [runIterations, hit]
      rw [this]
      exact ⟨h, List.prefix_refl _⟩
    · have hstep : runIterations cfg st (it :: rest)
          = runIterations cfg (runParents cfg st it) rest := by
        simp [runIterations, hit]
      rw [hstep]
      have h1 := runParents_preserves cfg it st h
      have h2 := ih (runParents cfg st it) h1.1
      exact ⟨h2.1, h1.2.trans h2.2⟩

/- ### C5: the archive never shrinks and identifiers are never reused -/

/-- C5: from any well-formed state, any run of the loop's iterations only
ever appends archive records — the earlier archive's identifiers, scores
and parent links survive as a prefix, never removed or replaced — and the
final archive has no duplicated version identifier; the version counter
increments on every attempted child (as soon as the developer returns
code), whether or not the child survives; and the archive of a completed
`run_dgm_loop` has pairwise-distinct identifiers. -/
theorem dgm_loop_archive_monotone_unique_ids :
    (∀ (cfg : LoopConfig) (st : LoopState) (its : List (List (Nat × AttemptOracle))),
        ArchiveWF st →
        archiveKeys st.archive <+: archiveKeys (runIterations cfg st its).archive
        ∧ ((runIterations cfg st its).archive.map (fun r => r.id)).Nodup)
    ∧ (∀ (cfg : LoopConfig) (st : LoopState) (idx : Nat) (o : AttemptOracle)
          (parent : AgentRec) (pm : AgentModule) (parent_code new_code : String),
        st.archive[idx]? = some parent →
        o.parentModule = some pm →
        (find_failures_on_train (some pm) o.shuffledTrain cfg.max_failures_per_child).1 ≠ [] →
        o.parentCode = some parent_code →
        o.newCode = some new_code →
        new_code ≠ "" →
        (processParent cfg st idx o).1.counter = st.counter + 1)
    ∧ (∀ (cfg : LoopConfig) (path : String) (m : Option AgentModule)
          (its : List (List (Nat × AttemptOracle))) (st' : LoopState),
        run_dgm_loop cfg path m its = some st' →
        (st'.archive.map (fun r => r.id)).Nodup) := by
  refine ⟨?_, ?_, ?_⟩
  · intro cfg st its h
    have hp := runIterations_preserves cfg its st h
    exact ⟨hp.2, hp.1.1⟩
  · intro cfg st idx o parent pm parent_code new_code hg hpm hmine hpc hnc hne
    by_cases hdup : pyStrip new_code = pyStrip parent_code
    · simp [processParent, hg, hpm, hmine, hpc, hnc, hne, hdup]
    · by_cases hval : validate_agent_model_usage new_code cfg.task_model = true
      · cases hcm : o.childModule with
        | none =>
          simp [processParent, hg, hpm, hmine, hpc, hnc, hne, hdup, hval, hcm]
        | some cm =>
          cases hrs : cm.run_agent with
          | none =>
            have hb : cm.run_agent.isSome = false := by simp [hrs]
            simp [processParent, hg, hpm, hmine, hpc, hnc, hne, hdup, hval, hcm, hb]
          | some runner =>
            have hb : cm.run_agent.isSome = true := by simp [hrs]
            simp [processParent, hg, hpm, hmine, hpc, hnc, hne, hdup, hval, hcm, hb]
      · simp [processParent, hg, hpm, hmine, hpc, hnc, hne, hdup, hval]
  · intro cfg path m its st' hrun
    cases m with
    | none => simp [run_dgm_loop] at hrun
    | some mm =>
      cases hr : mm.run_agent with
      | none => simp [run_dgm_loop, hr] at hrun
      | some runner =>
        have hst' : st' = runIterations cfg
            ⟨0, [{ id := 0, path := path,
                   score := evaluate_agent_on_dataset (some mm) cfg.validation_data,
                   children_count := 0, parent_id := none }], []⟩ its := by
          simp [run_dgm_loop, hr] at hrun
          exact hrun.symm
        have hwf : ArchiveWF
            ⟨0, [{ id := 0, path := path,
                   score := evaluate_agent_on_dataset (some mm) cfg.validation_data,
                   children_count := 0, parent_id := none }], []⟩ := by
          constructor
          · simp
          · intro r hr2
            simp at hr2
            rw [hr2]
        rw [hst']
        exact (runIterations_preserves cfg its _ hwf).1.1

theorem dgm_loop_archive_monotone_unique_ids_witness :
    archiveKeys [⟨0, "seed0.py", 0, 0, none⟩]
        <+: archiveKeys ((runIterations ⟨"gpt-4o-mini", 4, [], "agents"⟩
              ⟨0, [⟨0, "seed0.py", 0, 0, none⟩], []⟩ []).archive)
    ∧ (processParent ⟨"gpt-4o-mini", 4, [], "agents"⟩
        ⟨0, [⟨0, "seed0.py", 0, 0, none⟩], []⟩ 0
        ⟨some ⟨some (fun _ => Except.ok "7")⟩, [⟨"qq", "#### 8"⟩],
         some "codeA", some "codeB", none⟩).1.counter = 0 + 1 := by
  constructor
  · exact (dgm_loop_archive_monotone_unique_ids.1 ⟨"gpt-4o-mini", 4, [], "agents"⟩
      ⟨0, [⟨0, "seed0.py", 0, 0, none⟩], []⟩ [] (by decide)).1
  · exact dgm_loop_archive_monotone_unique_ids.2.1 ⟨"gpt-4o-mini", 4, [], "agents"⟩
      ⟨0, [⟨0, "seed0.py", 0, 0, none⟩], []⟩ 0
      ⟨some ⟨some (fun _ => Except.ok "7")⟩, [⟨"qq", "#### 8"⟩],
       some "codeA", some "codeB", none⟩
      ⟨0, "seed0.py", 0, 0, none⟩ ⟨some (fun _ => Except.ok "7")⟩ "codeA" "codeB"
      rfl rfl (by decide) rfl rfl (by decide)

/- ### Lemmas about answer normalization (towards C6) -/

theorem data_mk (l : List Char) : (⟨l⟩ : String).data = l := rfl

theorem getLast?_some_mem {α : Type} {l : List α} {a : α} (h : l.getLast? = some a) :
    a ∈ l := by
  have hm : a ∈ l.getLast? := by simp [h]
  obtain ⟨hne, rfl⟩ := List.mem_getLast?_eq_getLast hm
  exact List.getLast_mem hne

theorem dropWhile_eq_self_of_none {p : Char → Bool} {l : List Char}
    (h : ∀ c ∈ l, p c = false) : l.dropWhile p = l := by
  cases l with
  | nil => rfl
  | cons c cs =>
    have hc : p c = false := h c (by simp)
    simp [List.dropWhile_cons, hc]

theorem dropWhile_eq_nil_of_all {p : Char → Bool} :
    ∀ {l : List Char}, (∀ c ∈ l, p c = true) → l.dropWhile p = [] := by
  intro l
  induction l with
  | nil =>
    intro h
    rfl
  | cons c cs ih =>
    intro h
    simp [List.dropWhile_cons, h c (by simp), ih (fun x hx => h x (by simp [hx]))]

theorem takeWhile_eq_self_of_all {p : Char → Bool} :
    ∀ {l : List Char}, (∀ c ∈ l, p c = true) → l.takeWhile p = l := by
  intro l
  induction l with
  | nil =>
    intro h
    rfl
  | cons c cs ih =>
    intro h
    simp [List.takeWhile_cons, h c (by simp), ih (fun x hx => h x (by simp [hx]))]

theorem head?_dropWhile_false {p : Char → Bool} :
    ∀ (l : List Char) {c : Char}, (l.dropWhile p).head? = some c → p c = false := by
  intro l
  induction l with
  | nil =>
    intro c h
    simp at h
  | cons a as ih =>
    intro c h
    by_cases hpa : p a = true
    · rw [List.dropWhile_cons_of_pos hpa] at h
      exact ih h
    · have hpa2 : p a = false := by simpa using hpa
      rw [List.dropWhile_cons_of_neg (by simp [hpa2])] at h
      simp at h
      rw [← h]
      exact hpa2

theorem pyStripL_eq_self {l : List Char} (h : ∀ c ∈ l, isSpaceChar c = false) :
    pyStripL l = l := by
  unfold pyStripL
  rw [dropWhile_eq_self_of_none h]
  rw [dropWhile_eq_self_of_none (fun c hc => h c (List.mem_reverse.mp hc))]
  exact List.reverse_reverse l

theorem mem_pyStripL {l : List Char} {c : Char} (h : c ∈ pyStripL l) : c ∈ l := by
  unfold pyStripL at h
  rw [List.mem_reverse] at h
  have h1 := (List.dropWhile_sublist _).subset h
  rw [List.mem_reverse] at h1
  exact (List.dropWhile_sublist _).subset h1

theorem mem_rstripDots {l : List Char} {c : Char} (h : c ∈ rstripDots l) : c ∈ l := by
  unfold rstripDots at h
  rw [List.mem_reverse] at h
  have h1 := (List.dropWhile_sublist _).subset h
  exact List.mem_reverse.mp h1

theorem rstripDots_getLast_ne_dot {l : List Char} {c : Char}
    (h : (rstripDots l).getLast? = some c) : c ≠ '.' := by
  unfold rstripDots at h
  rw [List.getLast?_reverse] at h
  have hp := head?_dropWhile_false _ h
  intro hEq
  rw [hEq] at hp
  simp at hp

theorem rstripDots_eq_self {l : List Char}
    (h : ∀ c, l.getLast? = some c → c ≠ '.') : rstripDots l = l := by
  unfold rstripDots
  cases hl : l.reverse with
  | nil =>
    have hnil : l = [] := by
      have := congrArg List.reverse hl
      simpa using this
    simp [hnil]
  | cons c cs =>
    have hlast : l.getLast? = some c := by
      rw [← List.reverse_reverse l, List.getLast?_reverse]
      rw [hl]
      rfl
    have hne := h c hlast
    rw [List.dropWhile_cons_of_neg (by simp [hne]), ← hl, List.reverse_reverse]

theorem rstripDots_all_dots {l : List Char} (h : ∀ c ∈ l, c = '.') :
    rstripDots l = [] := by
  unfold rstripDots
  rw [dropWhile_eq_nil_of_all (fun c hc => by simp [h c (List.mem_reverse.mp hc)])]
  rfl

theorem numGo_nil (fuel : Nat) : numGo fuel [] = [] := by
  cases fuel <;> rfl

/-- Every run returned by the fallback-pattern scan is a non-empty,
all-`[0-9,.]` sublist of the text. -/
theorem numGo_run_props :
    ∀ (fuel : Nat) (l run : List Char), run ∈ numGo fuel l →
      run ≠ [] ∧ (∀ c ∈ run, isAnsChar c = true) ∧ List.Sublist run l := by
  intro fuel
  induction fuel with
  | zero =>
    intro l run h
    simp [numGo] at h
  | succ n ih =>
    intro l run h
    cases l with
    | nil =>
      simp [numGo] at h
    | cons c cs =>
      by_cases hc : isAnsChar c = true
      · rw [show numGo (n + 1) (c :: cs)
            = (c :: cs.takeWhile isAnsChar) :: numGo n (cs.dropWhile isAnsChar) from by
          simp [numGo, hc]] at h
        rcases List.mem_cons.mp h with rfl | hmem
        · refine ⟨by simp, ?_, ?_⟩
          · intro x hx
            rcases List.mem_cons.mp hx with rfl | hx2
            · exact hc
            · exact List.mem_takeWhile_imp hx2
          · exact List.Sublist.cons₂ c (List.takeWhile_sublist _)
        · obtain ⟨h1, h2, h3⟩ := ih _ _ hmem
          exact ⟨h1, h2, (h3.trans (List.dropWhile_sublist _)).trans (List.sublist_cons_self c cs)⟩
      · have hni : isAnsChar c = false := by simpa using hc
        rw [show numGo (n + 1) (c :: cs) = numGo n cs from by simp [numGo, hni]] at h
        obtain ⟨h1, h2, h3⟩ := ih _ _ h
        exact ⟨h1, h2, h3.trans (List.sublist_cons_self c cs)⟩

theorem hashGo_zero (l : List Char) : hashGo 0 l = [] := by
  cases l <;> rfl

theorem hashGo_succ_cons_no4 {n : Nat} {c : Char} {cs : List Char}
    (h4 : ¬ (c :: cs).take 4 = ['#', '#', '#', '#']) :
    hashGo (n + 1) (c :: cs) = hashGo n cs := by
  simp only [hashGo]
  rw [if_neg h4]

theorem hashGo_succ_cons_nilrun {n : Nat} {c : Char} {cs : List Char}
    (h4 : (c :: cs).take 4 = ['#', '#', '#', '#'])
    (hrun : (((c :: cs).drop 4).dropWhile isSpaceChar).takeWhile isAnsChar = []) :
    hashGo (n + 1) (c :: cs) = hashGo n cs := by
  simp only [hashGo]
  rw [if_pos h4, if_pos hrun]

theorem hashGo_succ_cons_run {n : Nat} {c : Char} {cs : List Char}
    (h4 : (c :: cs).take 4 = ['#', '#', '#', '#'])
    (hrun : ¬ (((c :: cs).drop 4).dropWhile isSpaceChar).takeWhile isAnsChar = []) :
    hashGo (n + 1) (c :: cs)
      = (((c :: cs).drop 4).dropWhile isSpaceChar).takeWhile isAnsChar
        :: hashGo n ((((c :: cs).drop 4).dropWhile isSpaceChar).dropWhile isAnsChar) := by
  simp only [hashGo]
  rw [if_pos h4, if_neg hrun]

/-- Every captured group of the `####` pattern is a non-empty,
all-`[0-9,.]` sublist of the text. -/
theorem hashGo_run_props :
    ∀ (fuel : Nat) (l run : List Char), run ∈ hashGo fuel l →
      run ≠ [] ∧ (∀ c ∈ run, isAnsChar c = true) ∧ List.Sublist run l := by
  intro fuel
  induction fuel with
  | zero =>
    intro l run h
    rw [hashGo_zero] at h
    simp at h
  | succ n ih =>
    intro l run h
    cases l with
    | nil =>
      simp [hashGo] at h
    | cons c cs =>
      by_cases h4 : (c :: cs).take 4 = ['#', '#', '#', '#']
      · by_cases hrun :
            (((c :: cs).drop 4).dropWhile isSpaceChar).takeWhile isAnsChar = []
        · rw [hashGo_succ_cons_nilrun h4 hrun] at h
          obtain ⟨h1, h2, h3⟩ := ih _ _ h
          exact ⟨h1, h2, h3.trans (List.sublist_cons_self c cs)⟩
        · rw [hashGo_succ_cons_run h4 hrun] at h
          rcases List.mem_cons.mp h with rfl | hmem
          · refine ⟨hrun, fun x hx => List.mem_takeWhile_imp hx, ?_⟩
            exact (List.takeWhile_sublist _).trans
              ((List.dropWhile_sublist _).trans (List.drop_sublist _ _))
          · obtain ⟨h1, h2, h3⟩ := ih _ _ hmem
            refine ⟨h1, h2, h3.trans ?_⟩
            exact (List.dropWhile_sublist _).trans
              ((List.dropWhile_sublist _).trans (List.drop_sublist _ _))
      · rw [hashGo_succ_cons_no4 h4] at h
        obtain ⟨h1, h2, h3⟩ := ih _ _ h
        exact ⟨h1, h2, h3.trans (List.sublist_cons_self c cs)⟩

/-- A text containing no `#` has no `####` match at all. -/
theorem hashGo_eq_nil_of_no_hash :
    ∀ (fuel : Nat) (l : List Char), (∀ c ∈ l, c ≠ '#') → hashGo fuel l = [] := by
  intro fuel
  induction fuel with
  | zero =>
    intro l h
    exact hashGo_zero l
  | succ n ih =>
    intro l h
    cases l with
    | nil => rfl
    | cons c cs =>
      have hc : c ≠ '#' := h c (by simp)
      have h4 : ¬ (c :: cs).take 4 = ['#', '#', '#', '#'] := by
        intro hEq
        rw [List.take_succ_cons] at hEq
        have hcc : c = '#' ∧ cs.take 3 = ['#', '#', '#'] := by
          simpa using hEq
        exact hc hcc.1
      rw [hashGo_succ_cons_no4 h4]
      exact ih cs (fun x hx => h x (by simp [hx]))

/-- A non-empty all-`[0-9,.]` text is one single run. -/
theorem numRuns_of_all_ans {l : List Char} (hne : l ≠ [])
    (h : ∀ c ∈ l, isAnsChar c = true) : numRuns l = [l] := by
  unfold numRuns
  cases l with
  | nil => exact absurd rfl hne
  | cons c cs =>
    have hc := h c (by simp)
    have htake : cs.takeWhile isAnsChar = cs :=
      takeWhile_eq_self_of_all (fun x hx => h x (by simp [hx]))
    have hdrop : cs.dropWhile isAnsChar = [] :=
      dropWhile_eq_nil_of_all (fun x hx => h x (by simp [hx]))
    simp [numGo, hc, htake, hdrop, numGo_nil]

theorem char_cases_of_ans {c : Char} (h : isAnsChar c = true) :
    c.isDigit = true ∨ c = ',' ∨ c = '.' := by
  simp only [isAnsChar, Bool.or_eq_true, decide_eq_true_eq] at h
  rcases h with (h | h) | h
  · exact Or.inl h
  · exact Or.inr (Or.inl h)
  · exact Or.inr (Or.inr h)

theorem not_space_of_digit_or_dot {c : Char} (h : c.isDigit = true ∨ c = '.') :
    isSpaceChar c = false := by
  rcases h with h | rfl
  · cases hx : isSpaceChar c with
    | false => rfl
    | true =>
      exfalso
      simp only [isSpaceChar, Bool.or_eq_true, decide_eq_true_eq] at hx
      rcases hx with ((((rfl | rfl) | rfl) | rfl) | rfl) | rfl <;> simp at h
  · rfl

theorem not_hash_of_digit_or_dot {c : Char} (h : c.isDigit = true ∨ c = '.') :
    c ≠ '#' := by
  rcases h with h | rfl
  · intro hEq
    rw [hEq] at h
    simp at h
  · decide

theorem ans_of_digit_or_dot {c : Char} (h : c.isDigit = true ∨ c = '.') :
    isAnsChar c = true := by
  rcases h with h | rfl
  · simp [isAnsChar, h]
  · decide

theorem not_comma_of_digit_or_dot {c : Char} (h : c.isDigit = true ∨ c = '.') :
    c ≠ ',' := by
  rcases h with h | rfl
  · intro hEq
    rw [hEq] at h
    simp at h
  · decide

/-- The characters a normalized run consists of, and its last character:
after comma removal, whitespace strip (a no-op on `[0-9,.]` characters)
and trailing-period strip, only digits and interior periods remain, and
the result never ends in a period. -/
theorem normalizeRun_chars {run : List Char} (h : ∀ c ∈ run, isAnsChar c = true) :
    (∀ c ∈ normalizeRun run, c.isDigit = true ∨ c = '.')
    ∧ (∀ c, (normalizeRun run).getLast? = some c → c ≠ '.') := by
  have hrc : ∀ c ∈ removeCommas run, c.isDigit = true ∨ c = '.' := by
    intro c hc
    unfold removeCommas at hc
    have hmem := List.mem_of_mem_filter hc
    have hpred := List.of_mem_filter hc
    rcases char_cases_of_ans (h c hmem) with h1 | h1 | h1
    · exact Or.inl h1
    · exfalso
      rw [h1] at hpred
      simp at hpred
    · exact Or.inr h1
  have hstrip : pyStripL (removeCommas run) = removeCommas run :=
    pyStripL_eq_self (fun c hc => not_space_of_digit_or_dot (hrc c hc))
  constructor
  · intro c hc
    unfold normalizeRun at hc
    rw [hstrip] at hc
    exact hrc c (mem_rstripDots hc)
  · intro c hc
    unfold normalizeRun at hc
    rw [hstrip] at hc
    exact rstripDots_getLast_ne_dot hc

/-- Characterization of `extract_final_answer`'s output: only digits and
interior periods, never ending in a period. -/
theorem extract_final_answer_chars (s : String) :
    (∀ c ∈ (extract_final_answer s).data, c.isDigit = true ∨ c = '.')
    ∧ (∀ c, (extract_final_answer s).data.getLast? = some c → c ≠ '.') := by
  cases hh : (hashMatches s.data).getLast? with
  | some run =>
    have hmem : run ∈ hashMatches s.data := getLast?_some_mem hh
    have hprops := hashGo_run_props _ _ _ hmem
    have hext : extract_final_answer s = ⟨normalizeRun run⟩ := by
      unfold extract_final_answer
      rw [hh]
    rw [hext, data_mk]
    exact normalizeRun_chars hprops.2.1
  | none =>
    cases hn : (numRuns s.data).getLast? with
    | some run =>
      have hmem : run ∈ numRuns s.data := getLast?_some_mem hn
      have hprops := numGo_run_props _ _ _ hmem
      have hext : extract_final_answer s = ⟨normalizeRun run⟩ := by
        unfold extract_final_answer
        rw [hh, hn]
      rw [hext, data_mk]
      exact normalizeRun_chars hprops.2.1
    | none =>
      have hext : extract_final_answer s = "" := by
        unfold extract_final_answer
        rw [hh, hn]
      rw [hext]
      constructor
      · intro c hc
        simp at hc
      · intro c hc
        simp at hc

/-- A string of digits and interior periods not ending in a period is a
fixed point of `extract_final_answer`. -/
theorem extract_final_answer_fixed {o : List Char}
    (h1 : ∀ c ∈ o, c.isDigit = true ∨ c = '.')
    (h2 : ∀ c, o.getLast? = some c → c ≠ '.') :
    extract_final_answer ⟨o⟩ = ⟨o⟩ := by
  have hhash : hashMatches o = [] :=
    hashGo_eq_nil_of_no_hash _ o (fun c hc => not_hash_of_digit_or_dot (h1 c hc))
  by_cases hne : o = []
  · subst hne
    rfl
  · have hrunsEq : numRuns o = [o] :=
      numRuns_of_all_ans hne (fun c hc => ans_of_digit_or_dot (h1 c hc))
    have hnc : removeCommas o = o := by
      unfold removeCommas
      apply List.filter_eq_self.mpr
      intro a ha
      simpa using not_comma_of_digit_or_dot (h1 a ha)
    have hst : pyStripL o = o :=
      pyStripL_eq_self (fun c hc => not_space_of_digit_or_dot (h1 c hc))
    have hrd : rstripDots o = o := rstripDots_eq_self h2
    have hnorm : normalizeRun o = o := by
      unfold normalizeRun
      rw [hnc, hst, hrd]
    unfold extract_final_answer
    rw [data_mk, hhash, hrunsEq]
    simp [hnorm]

/-- Any run found in a digit-free text consists of commas and periods
only, so its normalization is empty. -/
theorem normalizeRun_of_no_digit {s : String} {run : List Char}
    (h : ∀ c ∈ s.data, c.isDigit = false)
    (hans : ∀ c ∈ run, isAnsChar c = true) (hsub : List.Sublist run s.data) :
    normalizeRun run = [] := by
  have hchars : ∀ c ∈ removeCommas run, c = '.' := by
    intro c hc
    have hmem := List.mem_of_mem_filter hc
    have hpred := List.of_mem_filter hc
    have hnd := h c (hsub.subset hmem)
    rcases char_cases_of_ans (hans c hmem) with h1 | h1 | h1
    · rw [h1] at hnd
      cases hnd
    · exfalso
      rw [h1] at hpred
      simp at hpred
    · exact h1
  have hst : pyStripL (removeCommas run) = removeCommas run := by
    apply pyStripL_eq_self
    intro c hc
    rw [hchars c hc]
    rfl
  unfold normalizeRun
  rw [hst]
  exact rstripDots_all_dots hchars

/- ### C6: idempotence of answer normalization, and the spec's examples -/

/-- C6: answer normalization is idempotent — normalizing an
already-normalized value returns it unchanged — and on the spec's
examples: `"1,234."` normalizes to `"1234"`, `"7.5"` stays `"7.5"`
(interior decimal point preserved), and any text containing no digits
normalizes to the empty string. -/
theorem extract_final_answer_idempotent_and_examples :
    (∀ s : String,
        extract_final_answer (extract_final_answer s) = extract_final_answer s)
    ∧ extract_final_answer "1,234." = "1234"
    ∧ extract_final_answer "7.5" = "7.5"
    ∧ (∀ s : String, (∀ c ∈ s.data, c.isDigit = false) →
        extract_final_answer s = "") := by
  refine ⟨?_, by decide, by decide, ?_⟩
  · intro s
    have h := extract_final_answer_chars s
    exact extract_final_answer_fixed h.1 h.2
  · intro s h
    cases hh : (hashMatches s.data).getLast? with
    | some run =>
      have hmem : run ∈ hashMatches s.data := getLast?_some_mem hh
      have hp := hashGo_run_props _ _ _ hmem
      have hz := normalizeRun_of_no_digit h hp.2.1 hp.2.2
      have hext : extract_final_answer s = ⟨normalizeRun run⟩ := by
        unfold extract_final_answer
        rw [hh]
      rw [hext, hz]
    | none =>
      cases hn : (numRuns s.data).getLast? with
      | some run =>
        have hmem : run ∈ numRuns s.data := getLast?_some_mem hn
        have hp := numGo_run_props _ _ _ hmem
        have hz := normalizeRun_of_no_digit h hp.2.1 hp.2.2
        have hext : extract_final_answer s = ⟨normalizeRun run⟩ := by
          unfold extract_final_answer
          rw [hh, hn]
        rw [hext, hz]
      | none =>
        unfold extract_final_answer
        rw [hh, hn]

theorem extract_final_answer_idempotent_and_examples_witness :
    extract_final_answer "hello, world..." = "" :=
  extract_final_answer_idempotent_and_examples.2.2.2 "hello, world..." (by decide)

/- ### Structure of a successful policy-regex match (towards the
substring form of C7) -/

theorem matchCI_shape :
    ∀ (pat l m r : List Char), matchCI pat l = some (m, r) →
      l = m ++ r ∧ m.length = pat.length ∧ ∀ c ∈ m, ∃ p ∈ pat, c.toLower = p := by
  intro pat
  induction pat with
  | nil =>
    intro l m r h
    simp only [matchCI, Option.some.injEq, Prod.mk.injEq] at h
    obtain ⟨rfl, rfl⟩ := h.symm
    simp
  | cons p ps ih =>
    intro l m r h
    cases l with
    | nil => simp [matchCI] at h
    | cons c cs =>
      by_cases hc : c.toLower = p
      · rw [show matchCI (p :: ps) (c :: cs)
            = match matchCI ps cs with
              | none => none
              | some rr => some (c :: rr.1, rr.2) from by
          simp [matchCI, hc]] at h
        cases hm : matchCI ps cs with
        | none =>
          rw [hm] at h
          simp at h
        | some rr =>
          rw [hm] at h
          simp only [Option.some.injEq, Prod.mk.injEq] at h
          obtain ⟨hm1, hr⟩ := h
          obtain ⟨he, hlen, hch⟩ := ih cs rr.1 rr.2 hm
          subst hr
          refine ⟨?_, ?_, ?_⟩
          · rw [← hm1]
            simp [he]
          · rw [← hm1]
            simp [hlen]
          · intro x hx
            rw [← hm1] at hx
            rcases List.mem_cons.mp hx with rfl | hx2
            · exact ⟨p, by simp, hc⟩
            · obtain ⟨pp, hpp, hpc⟩ := hch x hx2
              exact ⟨pp, by simp [hpp], hpc⟩
      · rw [show matchCI (p :: ps) (c :: cs) = none from by simp [matchCI, hc]] at h
        simp at h

theorem tryModelVendors_shape {l pfx r : List Char}
    (h : tryModelVendors l = some (pfx, r)) :
    l = pfx ++ r
    ∧ ∀ c ∈ pfx, ∃ p ∈ "gpt-".data ++ "claude-".data ++ "gemini-".data,
        c.toLower = p := by
  unfold tryModelVendors at h
  cases h1 : matchCI "gpt-".data l with
  | some rr =>
    rw [h1] at h
    simp only [Option.some.injEq] at h
    obtain ⟨he, _, hch⟩ := matchCI_shape _ _ pfx r (by rw [h1, h])
    exact ⟨he, fun c hc => by
      obtain ⟨p, hp, hpc⟩ := hch c hc
      exact ⟨p, List.mem_append_left _ (List.mem_append_left _ hp), hpc⟩⟩
  | none =>
    rw [h1] at h
    cases h2 : matchCI "claude-".data l with
    | some rr =>
      rw [h2] at h
      simp only [Option.some.injEq] at h
      obtain ⟨he, _, hch⟩ := matchCI_shape _ _ pfx r (by rw [h2, h])
      exact ⟨he, fun c hc => by
        obtain ⟨p, hp, hpc⟩ := hch c hc
        exact ⟨p, List.mem_append_left _ (List.mem_append_right _ hp), hpc⟩⟩
    | none =>
      rw [h2] at h
      obtain ⟨he, _, hch⟩ := matchCI_shape _ _ pfx r h
      exact ⟨he, fun c hc => by
        obtain ⟨p, hp, hpc⟩ := hch c hc
        exact ⟨p, List.mem_append_right _ hp, hpc⟩⟩

/-- Decomposition of a successful match of the model regex: the consumed
text is the case-insensitive `model` literal, whitespace, `=`, whitespace,
an opening quote, the captured vendor-prefixed group, and a closing
quote. -/
theorem modelMatchAt_shape {l g rest : List Char} (h : modelMatchAt l = some (g, rest)) :
    ∃ m5 w1 w2 q pfx run q2,
      l = m5 ++ (w1 ++ '=' :: (w2 ++ q :: (pfx ++ (run ++ q2 :: rest))))
      ∧ g = pfx ++ run
      ∧ m5.length = 5
      ∧ (∀ c ∈ m5, ∃ p ∈ "model".data, c.toLower = p)
      ∧ (∀ c ∈ w1, isSpaceChar c = true)
      ∧ (∀ c ∈ w2, isSpaceChar c = true)
      ∧ isQuoteChar q = true
      ∧ isQuoteChar q2 = true
      ∧ (∀ c ∈ pfx, ∃ p ∈ "gpt-".data ++ "claude-".data ++ "gemini-".data,
          c.toLower = p)
      ∧ (∀ c ∈ run, isWordDotDash c = true)
      ∧ run ≠ [] := by
  unfold modelMatchAt at h
  split at h
  next => simp at h
  next r1 h1 =>
    split at h
    next h2 => simp at h
    next e r3 h2 =>
      split at h
      next he =>
        subst he
        split at h
        next h3 => simp at h
        next q r5 h3 =>
          split at h
          next hq =>
            split at h
            next h4 => simp at h
            next pr h4 =>
              split at h
              next hrun => simp at h
              next hrun =>
                split at h
                next h5 => simp at h
                next q2 r7 h5 =>
                  split at h
                  next hq2 =>
                    simp only [Option.some.injEq, Prod.mk.injEq] at h
                    obtain ⟨hg, hrest⟩ := h
                    subst hrest
                    obtain ⟨hl1, hlen, hm5⟩ := matchCI_shape _ _ r1.1 r1.2 (by rw [h1])
                    obtain ⟨hl4, hpfx⟩ := @tryModelVendors_shape r5 pr.1 pr.2
                      (by rw [h4])
                    have e5 : pr.2 = pr.2.takeWhile isWordDotDash ++ q2 :: r7 := by
                      conv_lhs => rw [← List.takeWhile_append_dropWhile
                        (p := isWordDotDash) (l := pr.2)]
                      rw [h5]
                    have e4 : r5 = pr.1 ++ (pr.2.takeWhile isWordDotDash ++ q2 :: r7) := by
                      rw [← e5]
                      exact hl4
                    have e3 : r3 = r3.takeWhile isSpaceChar
                        ++ q :: (pr.1 ++ (pr.2.takeWhile isWordDotDash ++ q2 :: r7)) := by
                      conv_lhs => rw [← List.takeWhile_append_dropWhile
                        (p := isSpaceChar) (l := r3)]
                      rw [h3, e4]
                    have e2 : r1.2 = r1.2.takeWhile isSpaceChar
                        ++ '=' :: (r3.takeWhile isSpaceChar
                          ++ q :: (pr.1 ++ (pr.2.takeWhile isWordDotDash ++ q2 :: r7))) := by
                      conv_lhs => rw [← List.takeWhile_append_dropWhile
                        (p := isSpaceChar) (l := r1.2)]
                      rw [h2]
                      rw [← e3]
                    refine ⟨r1.1, r1.2.takeWhile isSpaceChar, r3.takeWhile isSpaceChar,
                            q, pr.1, pr.2.takeWhile isWordDotDash, q2,
                            ?_, hg.symm, by simpa using hlen, hm5,
                            fun c hc => List.mem_takeWhile_imp hc,
                            fun c hc => List.mem_takeWhile_imp hc,
                            hq, hq2, hpfx,
                            fun c hc => List.mem_takeWhile_imp hc, hrun⟩
                    conv_lhs => rw [hl1, e2]
                  next hq2 => simp at h
          next hq => simp at h
      next he => simp at h

/- ### Quote positions determine a match's footprint -/

theorem quote_concrete {c : Char} (h : isQuoteChar c = true) :
    c = '"' ∨ c = Char.ofNat 39 := by
  simp only [isQuoteChar, Bool.or_eq_true, decide_eq_true_eq] at h
  rcases h with h | h
  · exact Or.inl h
  · right
    have h2 := congrArg Char.ofNat h
    rwa [Char.ofNat_toNat] at h2

theorem toLower_of_quote {c : Char} (h : isQuoteChar c = true) : c.toLower = c := by
  rcases quote_concrete h with rfl | rfl <;> decide

theorem not_quote_of_space {c : Char} (h : isSpaceChar c = true) :
    isQuoteChar c = false := by
  simp only [isSpaceChar, Bool.or_eq_true, decide_eq_true_eq] at h
  rcases h with ((((rfl | rfl) | rfl) | rfl) | rfl) | rfl <;> decide

theorem not_quote_of_word {c : Char} (h : isWordDotDash c = true) :
    isQuoteChar c = false := by
  cases hq : isQuoteChar c with
  | false => rfl
  | true =>
    exfalso
    rcases quote_concrete hq with rfl | rfl <;> exact absurd h (by decide)

theorem not_quote_of_model_ci {c : Char}
    (h : ∃ p ∈ "model".data, c.toLower = p) : isQuoteChar c = false := by
  cases hq : isQuoteChar c with
  | false => rfl
  | true =>
    exfalso
    obtain ⟨p, hp, hpc⟩ := h
    rw [toLower_of_quote hq] at hpc
    subst hpc
    rcases quote_concrete hq with rfl | rfl <;> simp at hp

theorem not_eq_of_vendor_ci {c : Char}
    (h : ∃ p ∈ "gpt-".data ++ "claude-".data ++ "gemini-".data, c.toLower = p) :
    c ≠ '=' := by
  rintro rfl
  obtain ⟨p, hp, hpc⟩ := h
  rw [show Char.toLower '=' = '=' from by decide] at hpc
  subst hpc
  simp at hp

theorem not_quote_of_vendor_ci {c : Char}
    (h : ∃ p ∈ "gpt-".data ++ "claude-".data ++ "gemini-".data, c.toLower = p) :
    isQuoteChar c = false := by
  cases hq : isQuoteChar c with
  | false => rfl
  | true =>
    exfalso
    obtain ⟨p, hp, hpc⟩ := h
    rw [toLower_of_quote hq] at hpc
    subst hpc
    rcases quote_concrete hq with rfl | rfl <;> simp at hp

/-- The first quote character splits a list uniquely. -/
theorem quote_split :
    ∀ (A : List Char) (q : Char) (B C : List Char) (q2 : Char) (D : List Char),
      (∀ c ∈ A, isQuoteChar c = false) → (∀ c ∈ C, isQuoteChar c = false) →
      isQuoteChar q = true → isQuoteChar q2 = true →
      A ++ q :: B = C ++ q2 :: D → A = C ∧ q = q2 ∧ B = D := by
  intro A
  induction A with
  | nil =>
    intro q B C q2 D hA hC hq hq2 hEq
    cases C with
    | nil =>
      simp only [List.nil_append, List.cons.injEq] at hEq
      exact ⟨rfl, hEq.1, hEq.2⟩
    | cons c C2 =>
      exfalso
      simp only [List.nil_append, List.cons_append, List.cons.injEq] at hEq
      have hcq := hC c (by simp)
      rw [← hEq.1] at hcq
      rw [hq] at hcq
      cases hcq
  | cons a A2 ih =>
    intro q B C q2 D hA hC hq hq2 hEq
    cases C with
    | nil =>
      exfalso
      simp only [List.cons_append, List.nil_append, List.cons.injEq] at hEq
      have haq := hA a (by simp)
      rw [hEq.1, hq2] at haq
      cases haq
    | cons c C2 =>
      simp only [List.cons_append, List.cons.injEq] at hEq
      obtain ⟨rfl, hEq2⟩ := hEq
      obtain ⟨h1, h2, h3⟩ := ih q B C2 q2 D (fun x hx => hA x (by simp [hx]))
        (fun x hx => hC x (by simp [hx])) hq hq2 hEq2
      exact ⟨by rw [h1], h2, h3⟩

/-- Every list is quote-free or splits at its first quote. -/
theorem firstQuote_decomp :
    ∀ l : List Char, (∀ c ∈ l, isQuoteChar c = false)
      ∨ ∃ P u R, l = P ++ u :: R ∧ (∀ c ∈ P, isQuoteChar c = false)
          ∧ isQuoteChar u = true := by
  intro l
  induction l with
  | nil =>
    left
    simp
  | cons c cs ih =>
    by_cases hc : isQuoteChar c = true
    · right
      exact ⟨[], c, cs, by simp, by simp, hc⟩
    · have hc2 : isQuoteChar c = false := by simpa using hc
      rcases ih with hfree | ⟨P, u, R, hEq, hP, hu⟩
      · left
        intro x hx
        rcases List.mem_cons.mp hx with rfl | hx2
        · exact hc2
        · exact hfree x hx2
      · right
        refine ⟨c :: P, u, R, by simp [hEq], ?_, hu⟩
        intro x hx
        rcases List.mem_cons.mp hx with rfl | hx2
        · exact hc2
        · exact hP x hx2

/-- A successful match attempt at a position strictly before an embedded
`model="claude-x"` substring ends strictly before that substring: the
quoted region of a match cannot span the substring's `=` or quotes. -/
theorem modelMatchAt_claude_cases (preRem post g rest : List Char) (hne : preRem ≠ [])
    (h : modelMatchAt (preRem ++ "model=\"claude-x\"".data ++ post) = some (g, rest)) :
    ∃ preRem2, rest = preRem2 ++ "model=\"claude-x\"".data ++ post
      ∧ preRem2.length < preRem.length := by
  obtain ⟨m5, w1, w2, q, pfx, run, q2, hl, hg, hm5len, hm5, hw1, hw2, hq, hq2, hpfx,
    hrunw, hrunne⟩ := modelMatchAt_shape h
  have hsub : "model=\"claude-x\"".data
      = "model=".data ++ '"' :: ("claude-x".data ++ ['"']) := by decide
  have hmodeq : ∀ c ∈ "model=".data, isQuoteChar c = false := by decide
  have hL0free : ∀ c ∈ m5 ++ w1 ++ '=' :: w2, isQuoteChar c = false := by
    intro c hc
    rcases List.mem_append.mp hc with hc1 | hc2
    · rcases List.mem_append.mp hc1 with hc3 | hc4
      · exact not_quote_of_model_ci (hm5 c hc3)
      · exact not_quote_of_space (hw1 c hc4)
    · rcases List.mem_cons.mp hc2 with rfl | hc5
      · decide
      · exact not_quote_of_space (hw2 c hc5)
  have hmidfree : ∀ c ∈ pfx ++ run, isQuoteChar c = false := by
    intro c hc
    rcases List.mem_append.mp hc with hc1 | hc2
    · exact not_quote_of_vendor_ci (hpfx c hc1)
    · exact not_quote_of_word (hrunw c hc2)
  have hmidne : ∀ c ∈ pfx ++ run, c ≠ '=' := by
    intro c hc
    rcases List.mem_append.mp hc with hc1 | hc2
    · exact not_eq_of_vendor_ci (hpfx c hc1)
    · intro hEq
      subst hEq
      exact absurd (hrunw _ hc2) (by decide)
  have hl2 : (m5 ++ w1 ++ '=' :: w2) ++ q :: ((pfx ++ run) ++ q2 :: rest)
      = preRem ++ "model=\"claude-x\"".data ++ post := by
    rw [hl]
    simp [List.append_assoc]
  rcases firstQuote_decomp preRem with hfree | ⟨P1, u1, R1, hP1eq, hP1, hu1⟩
  · exfalso
    have hr : preRem ++ "model=\"claude-x\"".data ++ post
        = (preRem ++ "model=".data) ++ '"' :: ("claude-x".data ++ ('"' :: post)) := by
      rw [hsub]
      simp [List.append_assoc]
    have hfree2 : ∀ c ∈ preRem ++ "model=".data, isQuoteChar c = false := by
      intro c hc
      rcases List.mem_append.mp hc with hc1 | hc2
      · exact hfree c hc1
      · exact hmodeq c hc2
    obtain ⟨hA, hqq, hB⟩ := quote_split _ q _ _ '"' _ hL0free hfree2 hq (by decide)
      (hl2.trans hr)
    have hw2nil : w2 = [] := by
      by_contra hw2ne
      have hlast : (m5 ++ w1 ++ '=' :: w2).getLast? = w2.getLast? := by
        rw [show m5 ++ w1 ++ '=' :: w2 = (m5 ++ w1 ++ ['=']) ++ w2 from by simp,
          List.getLast?_append_of_ne_nil _ hw2ne]
      have hlast2 : (preRem ++ "model=".data).getLast? = some '=' := by
        rw [List.getLast?_append_of_ne_nil _ (by decide : "model=".data ≠ [])]
        decide
      rw [hA, hlast2] at hlast
      have hmem := getLast?_some_mem hlast.symm
      exact absurd (hw2 _ hmem) (by decide)
    subst hw2nil
    have hA2 : m5 ++ w1 = preRem ++ "model".data := by
      have hstep : (m5 ++ w1) ++ ['='] = (preRem ++ "model".data) ++ ['='] := by
        have h1 : (m5 ++ w1) ++ ['='] = m5 ++ w1 ++ '=' :: ([] : List Char) := by simp
        rw [h1, hA, show "model=".data = "model".data ++ ['='] from by decide]
        simp [List.append_assoc]
      exact List.append_cancel_right hstep
    have hw1nil : w1 = [] := by
      by_contra hw1ne
      have hlast : (m5 ++ w1).getLast? = w1.getLast? :=
        List.getLast?_append_of_ne_nil _ hw1ne
      have hlast2 : (preRem ++ "model".data).getLast? = some 'l' := by
        rw [List.getLast?_append_of_ne_nil _ (by decide : "model".data ≠ [])]
        decide
      rw [hA2, hlast2] at hlast
      have hmem := getLast?_some_mem hlast.symm
      exact absurd (hw1 _ hmem) (by decide)
    subst hw1nil
    have hlen := congrArg List.length hA2
    rw [show ("model".data : List Char) = ['m', 'o', 'd', 'e', 'l'] from by decide] at hlen
    simp at hlen
    rw [hm5len] at hlen
    have hplen : preRem.length = 0 := by omega
    exact hne (List.length_eq_zero.mp hplen)
  · rcases firstQuote_decomp R1 with hfree1 | ⟨P2, u2, R2, hR1eq, hP2, hu2⟩
    · exfalso
      have hr : preRem ++ "model=\"claude-x\"".data ++ post
          = P1 ++ u1 :: (R1 ++ "model=\"claude-x\"".data ++ post) := by
        rw [hP1eq]
        simp [List.append_assoc]
      obtain ⟨hA, hqq, hB⟩ := quote_split _ q _ _ u1 _ hL0free hP1 hq hu1
        (hl2.trans hr)
      have hr2 : R1 ++ "model=\"claude-x\"".data ++ post
          = (R1 ++ "model=".data) ++ '"' :: ("claude-x".data ++ ('"' :: post)) := by
        rw [hsub]
        simp [List.append_assoc]
      have hfree2 : ∀ c ∈ R1 ++ "model=".data, isQuoteChar c = false := by
        intro c hc
        rcases List.mem_append.mp hc with hc1 | hc2
        · exact hfree1 c hc1
        · exact hmodeq c hc2
      obtain ⟨hA2, hq2eq, hB2⟩ := quote_split _ q2 _ _ '"' _ hmidfree hfree2 hq2
        (by decide) (hB.trans hr2)
      have hmemEq : '=' ∈ pfx ++ run := by
        rw [hA2]
        exact List.mem_append_right _ (by decide)
      exact absurd rfl (hmidne '=' hmemEq)
    · have hr : preRem ++ "model=\"claude-x\"".data ++ post
          = P1 ++ u1 :: (P2 ++ u2 :: (R2 ++ "model=\"claude-x\"".data ++ post)) := by
        rw [hP1eq, hR1eq]
        simp [List.append_assoc]
      obtain ⟨hA, hqq, hB⟩ := quote_split _ q _ _ u1 _ hL0free hP1 hq hu1
        (hl2.trans hr)
      obtain ⟨hA2, hq2eq, hB2⟩ := quote_split _ q2 _ _ u2 _ hmidfree hP2 hq2 hu2 hB
      refine ⟨R2, hB2, ?_⟩
      rw [hP1eq, hR1eq]
      simp
      omega

/-- At the substring itself the match succeeds and captures `claude-x`. -/
theorem modelMatchAt_claude_head (post : List Char) :
    modelMatchAt ("model=\"claude-x\"".data ++ post) = some ("claude-x".data, post) := rfl

/-- The scan always reaches an embedded `model="claude-x"` declaration,
whatever text surrounds it. -/
theorem findModelsGo_claude :
    ∀ (fuel : Nat) (preRem post : List Char),
      (preRem ++ "model=\"claude-x\"".data ++ post).length ≤ fuel →
      "claude-x".data ∈ findModelsGo fuel (preRem ++ "model=\"claude-x\"".data ++ post) := by
  intro fuel
  induction fuel with
  | zero =>
    intro preRem post hlen
    exfalso
    have h16 : (['m', 'o', 'd', 'e', 'l', '=', '"', 'c', 'l', 'a', 'u', 'd', 'e', '-', 'x', '"'] : List Char).length = 16 := by decide
    simp only [List.length_append, Nat.le_zero] at hlen
    omega
  | succ n ih =>
    intro preRem post hlen
    cases preRem with
    | nil =>
      have hstep : findModelsGo (n + 1) ('m' :: ("odel=\"claude-x\"".data ++ post))
          = "claude-x".data :: findModelsGo n post := by
        rw [show findModelsGo (n + 1) ('m' :: ("odel=\"claude-x\"".data ++ post))
            = (match modelMatchAt ('m' :: ("odel=\"claude-x\"".data ++ post)) with
               | some gr => gr.1 :: findModelsGo n gr.2
               | none => findModelsGo n ("odel=\"claude-x\"".data ++ post)) from by
          simp only [findModelsGo]]
        rw [show modelMatchAt ('m' :: ("odel=\"claude-x\"".data ++ post))
            = some ("claude-x".data, post) from modelMatchAt_claude_head post]
      simp only [List.nil_append]
      rw [show ("model=\"claude-x\"".data ++ post : List Char)
          = 'm' :: ("odel=\"claude-x\"".data ++ post) from rfl]
      rw [hstep]
      exact List.mem_cons_self _ _
    | cons c pr2 =>
      have hcons : (c :: pr2) ++ "model=\"claude-x\"".data ++ post
          = c :: (pr2 ++ "model=\"claude-x\"".data ++ post) := by simp
      rw [hcons]
      cases hm : modelMatchAt (c :: (pr2 ++ "model=\"claude-x\"".data ++ post)) with
      | none =>
        have hstep : findModelsGo (n + 1) (c :: (pr2 ++ "model=\"claude-x\"".data ++ post))
            = findModelsGo n (pr2 ++ "model=\"claude-x\"".data ++ post) := by
          simp only [findModelsGo, hm]
        rw [hstep]
        apply ih
        have h16 : (['m', 'o', 'd', 'e', 'l', '=', '"', 'c', 'l', 'a', 'u', 'd', 'e', '-', 'x', '"'] : List Char).length = 16 := by decide
        simp only [List.length_cons, List.length_append] at hlen ⊢
        omega
      | some gr =>
        obtain ⟨preRem2, hrest, hlt⟩ := modelMatchAt_claude_cases (c :: pr2) post gr.1 gr.2
          (by simp) (by rw [hcons]; exact hm)
        have hstep : findModelsGo (n + 1) (c :: (pr2 ++ "model=\"claude-x\"".data ++ post))
            = gr.1 :: findModelsGo n gr.2 := by
          simp only [findModelsGo, hm]
        rw [hstep]
        apply List.mem_cons_of_mem
        rw [show gr.2 = preRem2 ++ "model=\"claude-x\"".data ++ post from hrest]
        apply ih
        have h16 : (['m', 'o', 'd', 'e', 'l', '=', '"', 'c', 'l', 'a', 'u', 'd', 'e', '-', 'x', '"'] : List Char).length = 16 := by decide
        simp only [List.length_cons, List.length_append] at hlen hlt ⊢
        omega

/-- C7 substring form: the scan of any text containing `model="claude-x"`
finds the `claude-x` literal. -/
theorem findModels_claude (pre post : List Char) :
    "claude-x".data ∈ findModels (pre ++ "model=\"claude-x\"".data ++ post) :=
  findModelsGo_claude _ pre post (Nat.le_refl _)

/- ### C7: the model-usage policy check -/

/-- C7: the policy check discards a proposal exactly when the scan finds
at least one declaration binding `model` to a quoted vendor-prefixed
literal (`gpt-...`, `claude-...`, `gemini-...`) that differs (after
stripping) from the sanctioned task-model string.  In particular a
proposal containing `model="claude-x"` — with arbitrary text before and
after — is always discarded when the sanctioned model is `"gpt-4o-mini"`;
a proposal whose only such literal matches the sanctioned model is never
discarded by the policy check alone; and a proposal with no such literal
always passes. -/
theorem validate_model_usage_policy :
    (∀ (code allowed : String),
        validate_agent_model_usage code allowed = false
          ↔ ∃ m ∈ findModels code.data, pyStripL m ≠ pyStripL allowed.data)
    ∧ (∀ code : String, "claude-x".data ∈ findModels code.data →
        validate_agent_model_usage code "gpt-4o-mini" = false)
    ∧ (∀ pre post : List Char,
        validate_agent_model_usage ⟨pre ++ "model=\"claude-x\"".data ++ post⟩
          "gpt-4o-mini" = false)
    ∧ validate_agent_model_usage "x = 1\nmodel = 'gpt-4o-mini'\nrun()" "gpt-4o-mini"
        = true
    ∧ (∀ (code allowed : String), findModels code.data = [] →
        validate_agent_model_usage code allowed = true) := by
  have hiff : ∀ (code allowed : String),
      validate_agent_model_usage code allowed = false
        ↔ ∃ m ∈ findModels code.data, pyStripL m ≠ pyStripL allowed.data := by
    intro code allowed
    by_cases hf : findModels code.data = []
    · simp [validate_agent_model_usage, hf]
    · simp [validate_agent_model_usage, hf]
  refine ⟨hiff, ?_, ?_, by decide, ?_⟩
  · intro code hmem
    exact (hiff code "gpt-4o-mini").mpr ⟨_, hmem, by decide⟩
  · intro pre post
    refine (hiff _ "gpt-4o-mini").mpr ⟨"claude-x".data, ?_, by decide⟩
    rw [data_mk]
    exact findModels_claude pre post
  · intro code allowed hf
    simp [validate_agent_model_usage, hf]

theorem validate_model_usage_policy_witness :
    validate_agent_model_usage
        ⟨"import os\n".data ++ "model=\"claude-x\"".data ++ "\nprint(1)".data⟩
        "gpt-4o-mini" = false
    ∧ validate_agent_model_usage "def run(q):\n    return q" "gpt-4o-mini" = true := by
  constructor
  · exact validate_model_usage_policy.2.2.1 "import os\n".data "\nprint(1)".data
  · exact validate_model_usage_policy.2.2.2.2 "def run(q):\n    return q" "gpt-4o-mini"
      (by decide)
